import Mathlib

/-!
Verification of the disk-usage-based layer eviction engine
(`pageserver/src/disk_usage_eviction_task.rs`).

The development shallowly embeds the module: the filesystem-usage pressure
predicate (including an exact model of its IEEE-754 double-precision
percentage computation), the `FiniteF32` ordering utility, the per-tenant
candidate collection with min-resident-size partitioning and relative-age
keys, the eviction planner, and the executor's failure accounting.

Machine floats are modelled exactly: an IEEE binary float of precision
`p + 1` bits is a rational, and every arithmetic operation is the exact
rational result rounded to nearest, ties to even.  All values arising in
the embedded computations stay inside the normal (non-overflowing,
non-subnormal) range of `f64` (resp. `f32`), where this model agrees with
IEEE-754 arithmetic.
-/

/-! ### Round to nearest, ties to even -/

/-- Round a rational to the nearest integer, ties to even. -/
def rhe (x : ℚ) : ℤ :=
  if Int.fract x < 1/2 then ⌊x⌋
  else if 1/2 < Int.fract x then ⌊x⌋ + 1
  else if ⌊x⌋ % 2 = 0 then ⌊x⌋ else ⌊x⌋ + 1

theorem rhe_intCast (n : ℤ) : rhe (n : ℚ) = n := by
  simp [rhe, Int.fract_intCast]

theorem floor_le_rhe (x : ℚ) : ⌊x⌋ ≤ rhe x := by
  unfold rhe
  split
  · exact le_rfl
  split
  · exact Int.le_add_one le_rfl
  split
  · exact le_rfl
  · exact Int.le_add_one le_rfl

theorem rhe_le_floor_add_one (x : ℚ) : rhe x ≤ ⌊x⌋ + 1 := by
  unfold rhe
  split
  · exact Int.le_add_one le_rfl
  split
  · exact le_rfl
  split
  · exact Int.le_add_one le_rfl
  · exact le_rfl

theorem rhe_mono {x y : ℚ} (h : x ≤ y) : rhe x ≤ rhe y := by
  rcases lt_or_eq_of_le (Int.floor_mono h) with hf | hf
  · calc rhe x ≤ ⌊x⌋ + 1 := rhe_le_floor_add_one x
    _ ≤ ⌊y⌋ := hf
    _ ≤ rhe y := floor_le_rhe y
  · have hfr : Int.fract x ≤ Int.fract y := by
      unfold Int.fract
      rw [hf]
      exact sub_le_sub_right h _
    unfold rhe
    rw [hf]
    by_cases h1 : Int.fract y < 1/2
    · rw [if_pos (lt_of_le_of_lt hfr h1), if_pos h1]
    · rw [if_neg h1]
      by_cases h2 : Int.fract x < 1/2
      · rw [if_pos h2]
        split
        · exact Int.le_add_one le_rfl
        · split
          · exact le_rfl
          · exact Int.le_add_one le_rfl
      · rw [if_neg h2]
        by_cases h3 : 1/2 < Int.fract x
        · rw [if_pos h3, if_pos (lt_of_lt_of_le h3 hfr)]
        · rw [if_neg h3]
          by_cases h4 : 1/2 < Int.fract y
          · rw [if_pos h4]
            split
            · exact Int.le_add_one le_rfl
            · exact le_rfl
          · rw [if_neg h4]

/-! ### Powers of two with integer exponent, computable without `zpow` -/

/-- `pow2z k` is `2 ^ k` as a rational, defined by cases on the sign of `k`
so that it evaluates by structural recursion. -/
def pow2z : ℤ → ℚ
  | .ofNat n => 2 ^ n
  | .negSucc n => ((2:ℚ) ^ (n+1))⁻¹

theorem pow2z_eq_zpow (k : ℤ) : pow2z k = (2:ℚ) ^ k := by
  cases k with
  | ofNat n => simp [pow2z]
  | negSucc n => simp [pow2z, zpow_negSucc]

theorem pow2z_pos (k : ℤ) : 0 < pow2z k := by
  rw [pow2z_eq_zpow]
  exact zpow_pos (by norm_num) k

theorem pow2z_mono {a b : ℤ} (h : a ≤ b) : pow2z a ≤ pow2z b := by
  rw [pow2z_eq_zpow, pow2z_eq_zpow]
  exact zpow_le_zpow_right₀ one_le_two h

theorem pow2z_mul (a b : ℤ) : pow2z a * pow2z b = pow2z (a + b) := by
  rw [pow2z_eq_zpow, pow2z_eq_zpow, pow2z_eq_zpow]
  exact (zpow_add₀ (by norm_num) a b).symm

theorem pow2z_natCast (n : ℕ) : pow2z (n : ℤ) = 2 ^ n := by
  rw [pow2z_eq_zpow, zpow_natCast]

theorem pow2z_neg_natCast (n : ℕ) : pow2z (-(n : ℤ)) = ((2:ℚ) ^ n)⁻¹ := by
  cases n with
  | zero => simp [pow2z]
  | succ m =>
    show pow2z (Int.negSucc m) = _
    simp [pow2z]

theorem pow2z_zero : pow2z 0 = 1 := by
  rw [show (0:ℤ) = ((0:ℕ) : ℤ) by norm_num, pow2z_natCast]
  norm_num

/-- Split a power of two at an arbitrary exponent. -/
theorem pow2z_split (a b : ℤ) : pow2z a = pow2z b * pow2z (a - b) := by
  rw [pow2z_mul]
  congr 1
  ring

/-! ### Fueled binary logarithms on naturals (structurally recursive) -/

/-- Fueled floor of the binary logarithm. -/
def natLog2F : ℕ → ℕ → ℕ
  | 0, _ => 0
  | f+1, n => if n ≤ 1 then 0 else natLog2F f (n / 2) + 1

/-- Fueled ceiling of the binary logarithm. -/
def natClog2F : ℕ → ℕ → ℕ
  | 0, _ => 0
  | f+1, n => if n ≤ 1 then 0 else natClog2F f ((n+1) / 2) + 1

theorem natLog2F_spec : ∀ f n, 0 < n → n < 2 ^ f →
    2 ^ natLog2F f n ≤ n ∧ n < 2 ^ (natLog2F f n + 1) := by
  intro f
  induction f with
  | zero => intro n h1 h2; omega
  | succ f ih =>
    intro n h1 h2
    by_cases hn : n ≤ 1
    · have : n = 1 := by omega
      subst this
      simp [natLog2F]
    · have h2' : n / 2 < 2 ^ f := by
        have : n < 2 * 2 ^ f := by
          have : (2:ℕ) ^ (f+1) = 2 * 2 ^ f := by ring
          omega
        omega
      have h1' : 0 < n / 2 := by omega
      obtain ⟨ha, hb⟩ := ih (n / 2) h1' h2'
      rw [natLog2F, if_neg hn]
      constructor
      · have : 2 ^ (natLog2F f (n / 2) + 1) = 2 * 2 ^ natLog2F f (n / 2) := by ring
        omega
      · have : 2 ^ (natLog2F f (n / 2) + 1 + 1) = 2 * 2 ^ (natLog2F f (n / 2) + 1) := by ring
        omega

theorem natClog2F_spec : ∀ f n, 0 < n → n ≤ 2 ^ f →
    n ≤ 2 ^ natClog2F f n ∧ 2 ^ natClog2F f n < 2 * n := by
  intro f
  induction f with
  | zero =>
    intro n h1 h2
    interval_cases n
    simp [natClog2F]
  | succ f ih =>
    intro n h1 h2
    by_cases hn : n ≤ 1
    · have : n = 1 := by omega
      subst this
      simp [natClog2F]
    · have h2' : (n+1) / 2 ≤ 2 ^ f := by
        have : (2:ℕ) ^ (f+1) = 2 * 2 ^ f := by ring
        omega
      have h1' : 0 < (n+1) / 2 := by omega
      obtain ⟨ha, hb⟩ := ih ((n+1) / 2) h1' h2'
      rw [natClog2F, if_neg hn]
      constructor
      · have : 2 ^ (natClog2F f ((n+1) / 2) + 1) = 2 * 2 ^ natClog2F f ((n+1) / 2) := by ring
        omega
      · rcases Nat.eq_zero_or_pos (natClog2F f ((n+1) / 2)) with h0 | hpos
        · rw [h0] at ha
          norm_num at ha
          omega
        · have hdvd : 2 ∣ 2 ^ natClog2F f ((n+1) / 2) :=
            dvd_pow_self 2 (Nat.pos_iff_ne_zero.mp hpos)
          have heven : 2 ^ (natClog2F f ((n+1) / 2) + 1) =
              2 * 2 ^ natClog2F f ((n+1) / 2) := by ring
          omega

/-! ### Binary logarithm of a positive rational -/

/-- The integer `e` with `2 ^ e ≤ q < 2 ^ (e+1)` for positive `q`
(computed structurally; garbage on non-positive input). -/
def ratLog2 (q : ℚ) : ℤ :=
  if 1 ≤ q then (natLog2F ⌊q⌋.toNat ⌊q⌋.toNat : ℤ)
  else -(natClog2F ⌈q⁻¹⌉.toNat ⌈q⁻¹⌉.toNat : ℤ)

theorem ratLog2_spec {q : ℚ} (hq : 0 < q) :
    pow2z (ratLog2 q) ≤ q ∧ q < pow2z (ratLog2 q + 1) := by
  unfold ratLog2
  by_cases h1 : 1 ≤ q
  · rw [if_pos h1]
    have hF1 : 1 ≤ ⌊q⌋ := Int.le_floor.mpr (by exact_mod_cast h1)
    set m : ℕ := ⌊q⌋.toNat with hm
    have hmF : (m : ℤ) = ⌊q⌋ := Int.toNat_of_nonneg (by omega)
    have hmpos : 0 < m := by omega
    obtain ⟨ha, hb⟩ := natLog2F_spec m m hmpos (Nat.lt_two_pow m)
    set k : ℕ := natLog2F m m with hk
    have hmq : (m : ℚ) ≤ q := by
      have h := Int.floor_le q
      calc (m : ℚ) = ((m : ℤ) : ℚ) := by push_cast; ring
      _ = (⌊q⌋ : ℚ) := by rw [hmF]
      _ ≤ q := h
    have hqm : q < (m : ℚ) + 1 := by
      have h := Int.lt_floor_add_one q
      calc q < (⌊q⌋ : ℚ) + 1 := h
      _ = (m : ℚ) + 1 := by rw [← hmF]; push_cast; ring
    constructor
    · rw [pow2z_natCast]
      calc ((2:ℚ) ^ k) = ((2 ^ k : ℕ) : ℚ) := by push_cast; ring
      _ ≤ (m : ℚ) := by exact_mod_cast ha
      _ ≤ q := hmq
    · have : ((k : ℤ) + 1) = ((k + 1 : ℕ) : ℤ) := by push_cast; ring
      rw [this, pow2z_natCast]
      have hmb : (m : ℚ) + 1 ≤ ((2 ^ (k+1) : ℕ) : ℚ) := by exact_mod_cast hb
      calc q < (m : ℚ) + 1 := hqm
      _ ≤ ((2 ^ (k+1) : ℕ) : ℚ) := hmb
      _ = (2:ℚ) ^ (k+1) := by push_cast; ring
  · rw [if_neg h1]
    push_neg at h1
    have hr1 : 1 < q⁻¹ := (one_lt_inv₀ hq).mpr h1
    have hrpos : 0 < q⁻¹ := by positivity
    have hC2 : 2 ≤ ⌈q⁻¹⌉ := by
      have : (1:ℤ) < ⌈q⁻¹⌉ := Int.lt_ceil.mpr (by exact_mod_cast hr1)
      omega
    set m : ℕ := ⌈q⁻¹⌉.toNat with hm
    have hmC : (m : ℤ) = ⌈q⁻¹⌉ := Int.toNat_of_nonneg (by omega)
    have hm2 : 2 ≤ m := by omega
    obtain ⟨ha, hb⟩ := natClog2F_spec m m (by omega) (Nat.lt_two_pow m).le
    set c : ℕ := natClog2F m m with hc
    have hc1 : 1 ≤ c := by
      by_contra hcon
      have : c = 0 := by omega
      rw [this] at ha
      norm_num at ha
      omega
    have hrm : q⁻¹ ≤ (m : ℚ) := by
      have h := Int.le_ceil q⁻¹
      calc q⁻¹ ≤ (⌈q⁻¹⌉ : ℚ) := h
      _ = (m : ℚ) := by rw [← hmC]; push_cast; ring
    have hmr : (m : ℚ) - 1 < q⁻¹ := by
      have h := Int.ceil_lt_add_one q⁻¹
      have : (⌈q⁻¹⌉ : ℚ) = (m : ℚ) := by rw [← hmC]; push_cast; ring
      linarith [this ▸ h]
    constructor
    · rw [pow2z_neg_natCast]
      rw [inv_le_comm₀ (by positivity) hq]
      calc q⁻¹ ≤ (m : ℚ) := hrm
      _ ≤ ((2 ^ c : ℕ) : ℚ) := by exact_mod_cast ha
      _ = (2:ℚ) ^ c := by push_cast; ring
    · have hrw : (-(c : ℤ) + 1) = -((c - 1 : ℕ) : ℤ) := by omega
      rw [hrw, pow2z_neg_natCast]
      rw [lt_inv_comm₀ hq (by positivity)]
      have hpow : 2 ^ (c - 1) < m := by
        have h2c : (2:ℕ) ^ c = 2 * 2 ^ (c - 1) := by
          conv_lhs => rw [show c = (c - 1) + 1 by omega]
          rw [pow_succ]
          ring
        omega
      calc ((2:ℚ) ^ (c-1)) = ((2 ^ (c-1) : ℕ) : ℚ) := by push_cast; ring
      _ ≤ (m : ℚ) - 1 := by
        have : (2 ^ (c-1) : ℕ) + 1 ≤ m := hpow
        have hcast : ((2 ^ (c-1) : ℕ) : ℚ) + 1 ≤ (m : ℚ) := by exact_mod_cast this
        linarith
      _ < q⁻¹ := hmr

theorem ratLog2_unique {q : ℚ} {e : ℤ} (hq : 0 < q)
    (hlow : pow2z e ≤ q) (hhigh : q < pow2z (e + 1)) : ratLog2 q = e := by
  obtain ⟨ha, hb⟩ := ratLog2_spec hq
  by_contra hne
  rcases lt_or_gt_of_ne hne with hlt | hgt
  · have h1 : ratLog2 q + 1 ≤ e := by omega
    have := lt_of_lt_of_le hb (pow2z_mono h1)
    exact absurd hlow (not_le.mpr this)
  · have h1 : e + 1 ≤ ratLog2 q := by omega
    have := lt_of_lt_of_le hhigh (pow2z_mono h1)
    exact absurd ha (not_le.mpr this)

/-! ### Correctly rounded floats of precision `p + 1` bits -/

/-- Round a positive rational to the nearest float with a `p + 1` bit
mantissa (round to nearest, ties to even). -/
def roundPos (p : ℕ) (q : ℚ) : ℚ :=
  (rhe (q * pow2z ((p:ℤ) - ratLog2 q)) : ℚ) * pow2z (ratLog2 q - (p:ℤ))

/-- Round a rational to the nearest IEEE binary float with a `p + 1` bit
mantissa.  `p = 52` models `f64`, `p = 23` models `f32`; the model has no
overflow or subnormals, so it coincides with IEEE-754 only inside the
normal range, where all embedded computations live. -/
def roundFP (p : ℕ) (q : ℚ) : ℚ :=
  if 0 < q then roundPos p q
  else if q < 0 then -roundPos p (-q)
  else 0

theorem roundPos_scaled_bounds {p : ℕ} {q : ℚ} (hq : 0 < q) :
    pow2z (p:ℤ) ≤ q * pow2z ((p:ℤ) - ratLog2 q) ∧
      q * pow2z ((p:ℤ) - ratLog2 q) < pow2z ((p:ℤ) + 1) := by
  obtain ⟨ha, hb⟩ := ratLog2_spec hq
  have hp2 : 0 < pow2z ((p:ℤ) - ratLog2 q) := pow2z_pos _
  have hs1 : pow2z (p:ℤ) = pow2z (ratLog2 q) * pow2z ((p:ℤ) - ratLog2 q) := by
    rw [pow2z_mul]
    congr 1
    ring
  have hs2 : pow2z (ratLog2 q + 1) * pow2z ((p:ℤ) - ratLog2 q) = pow2z ((p:ℤ) + 1) := by
    rw [pow2z_mul]
    congr 1
    ring
  constructor
  · rw [hs1]
    exact mul_le_mul_of_nonneg_right ha hp2.le
  · rw [← hs2]
    exact mul_lt_mul_of_pos_right hb hp2

theorem pow2z_natCast_q (p : ℕ) : pow2z (p:ℤ) = (((2:ℤ) ^ p : ℤ) : ℚ) := by
  rw [pow2z_natCast]
  push_cast
  ring

theorem pow2z_succ_natCast_q (p : ℕ) : pow2z ((p:ℤ) + 1) = (((2:ℤ) ^ (p+1) : ℤ) : ℚ) := by
  rw [show ((p:ℤ) + 1) = ((p + 1 : ℕ) : ℤ) by push_cast; ring, pow2z_natCast]
  push_cast
  ring

theorem roundPos_bounds {p : ℕ} {q : ℚ} (hq : 0 < q) :
    pow2z (ratLog2 q) ≤ roundPos p q ∧ roundPos p q ≤ pow2z (ratLog2 q + 1) := by
  obtain ⟨ha, hb⟩ := roundPos_scaled_bounds (p := p) hq
  set x : ℚ := q * pow2z ((p:ℤ) - ratLog2 q) with hx
  have hfl : (2:ℤ) ^ p ≤ ⌊x⌋ := by
    rw [Int.le_floor]
    rw [← pow2z_natCast_q]
    exact ha
  have hfu : ⌊x⌋ < (2:ℤ) ^ (p + 1) := by
    rw [Int.floor_lt]
    rw [← pow2z_succ_natCast_q]
    exact hb
  have hm1 : (2:ℤ) ^ p ≤ rhe x := le_trans hfl (floor_le_rhe x)
  have hm2 : rhe x ≤ (2:ℤ) ^ (p + 1) := by
    have := rhe_le_floor_add_one x
    omega
  have hm1q : pow2z (p:ℤ) ≤ (rhe x : ℚ) := by
    rw [pow2z_natCast_q]
    exact_mod_cast hm1
  have hm2q : (rhe x : ℚ) ≤ pow2z ((p:ℤ) + 1) := by
    rw [pow2z_succ_natCast_q]
    exact_mod_cast hm2
  have hsplit1 : pow2z (ratLog2 q) = pow2z (p:ℤ) * pow2z (ratLog2 q - (p:ℤ)) := by
    rw [pow2z_mul]
    congr 1
    ring
  have hsplit2 : pow2z ((p:ℤ) + 1) * pow2z (ratLog2 q - (p:ℤ)) = pow2z (ratLog2 q + 1) := by
    rw [pow2z_mul]
    congr 1
    ring
  constructor
  · unfold roundPos
    rw [← hx, hsplit1]
    exact mul_le_mul_of_nonneg_right hm1q (pow2z_pos _).le
  · unfold roundPos
    rw [← hx, ← hsplit2]
    exact mul_le_mul_of_nonneg_right hm2q (pow2z_pos _).le

theorem roundPos_pos {p : ℕ} {q : ℚ} (hq : 0 < q) : 0 < roundPos p q :=
  lt_of_lt_of_le (pow2z_pos _) (roundPos_bounds hq).1

theorem ratLog2_mono {q q' : ℚ} (hq : 0 < q) (h : q ≤ q') :
    ratLog2 q ≤ ratLog2 q' := by
  have hq' : 0 < q' := lt_of_lt_of_le hq h
  by_contra hcon
  push_neg at hcon
  have h1 : ratLog2 q' + 1 ≤ ratLog2 q := by omega
  obtain ⟨ha, _⟩ := ratLog2_spec hq
  obtain ⟨_, hb'⟩ := ratLog2_spec hq'
  have := calc q' < pow2z (ratLog2 q' + 1) := hb'
    _ ≤ pow2z (ratLog2 q) := pow2z_mono h1
    _ ≤ q := ha
  linarith

theorem roundPos_mono {p : ℕ} {q q' : ℚ} (hq : 0 < q) (h : q ≤ q') :
    roundPos p q ≤ roundPos p q' := by
  have hq' : 0 < q' := lt_of_lt_of_le hq h
  rcases lt_or_eq_of_le (ratLog2_mono hq h) with he | he
  · calc roundPos p q ≤ pow2z (ratLog2 q + 1) := (roundPos_bounds hq).2
    _ ≤ pow2z (ratLog2 q') := pow2z_mono (by omega)
    _ ≤ roundPos p q' := (roundPos_bounds hq').1
  · unfold roundPos
    rw [he]
    apply mul_le_mul_of_nonneg_right _ (pow2z_pos _).le
    have : q * pow2z ((p:ℤ) - ratLog2 q') ≤ q' * pow2z ((p:ℤ) - ratLog2 q') :=
      mul_le_mul_of_nonneg_right h (pow2z_pos _).le
    exact_mod_cast rhe_mono this

theorem roundFP_mono {p : ℕ} {q q' : ℚ} (h : q ≤ q') :
    roundFP p q ≤ roundFP p q' := by
  unfold roundFP
  by_cases h1 : 0 < q
  · rw [if_pos h1, if_pos (lt_of_lt_of_le h1 h)]
    exact roundPos_mono h1 h
  · rw [if_neg h1]
    by_cases h2 : 0 < q'
    · rw [if_pos h2]
      by_cases h3 : q < 0
      · rw [if_pos h3]
        have := roundPos_pos (p := p) (show 0 < -q by linarith)
        have := roundPos_pos (p := p) h2
        linarith
      · rw [if_neg h3]
        exact (roundPos_pos h2).le
    · rw [if_neg h2]
      by_cases h3 : q < 0
      · rw [if_pos h3]
        by_cases h4 : q' < 0
        · rw [if_pos h4]
          have hmono := roundPos_mono (p := p) (show 0 < -q' by linarith)
            (show -q' ≤ -q by linarith)
          linarith
        · rw [if_neg h4]
          have := roundPos_pos (p := p) (show 0 < -q by linarith)
          linarith
      · rw [if_neg h3]
        have hq0 : q = 0 := by linarith
        have hq'0 : q' = 0 := by
          have : q' ≤ 0 := not_lt.mp h2
          have : 0 ≤ q' := by rw [← hq0]; exact h
          linarith
        rw [if_neg (by rw [hq'0]; exact lt_irrefl 0)]

theorem roundFP_nonneg {p : ℕ} {q : ℚ} (h : 0 ≤ q) : 0 ≤ roundFP p q := by
  unfold roundFP
  by_cases h1 : 0 < q
  · rw [if_pos h1]
    exact (roundPos_pos h1).le
  · rw [if_neg h1, if_neg (by linarith)]

theorem roundFP_zero (p : ℕ) : roundFP p 0 = 0 := by
  unfold roundFP
  norm_num

/-- Naturals below `2 ^ (p + 1)` are exactly representable. -/
theorem roundFP_natCast_eq {p n : ℕ} (h0 : 0 < n) (h : n < 2 ^ (p + 1)) :
    roundFP p (n : ℚ) = n := by
  have hq : (0:ℚ) < n := by exact_mod_cast h0
  unfold roundFP
  rw [if_pos hq]
  unfold roundPos
  set e : ℤ := ratLog2 (n : ℚ) with he
  have hspec := ratLog2_spec hq
  have he0 : 0 ≤ e := by
    by_contra hcon
    push_neg at hcon
    have h1 : e + 1 ≤ 0 := by omega
    have := calc (n:ℚ) < pow2z (e + 1) := hspec.2
      _ ≤ pow2z 0 := pow2z_mono h1
      _ = 1 := by norm_num [pow2z]
    have : (n:ℚ) < 1 := this
    have : n < 1 := by exact_mod_cast this
    omega
  have hep : e ≤ (p:ℤ) := by
    by_contra hcon
    push_neg at hcon
    have h1 : ((p:ℤ) + 1) ≤ e := by omega
    have := calc pow2z ((p:ℤ) + 1) ≤ pow2z e := pow2z_mono h1
      _ ≤ (n:ℚ) := hspec.1
    have h2 : pow2z ((p:ℤ) + 1) = ((2 ^ (p+1) : ℕ) : ℚ) := by
      rw [show ((p:ℤ) + 1) = ((p + 1 : ℕ) : ℤ) by push_cast; ring, pow2z_natCast]
      push_cast; ring
    rw [h2] at this
    have : (2:ℕ) ^ (p+1) ≤ n := by exact_mod_cast this
    omega
  set t : ℕ := ((p:ℤ) - e).toNat with ht
  have htz : ((p:ℤ) - e) = (t : ℤ) := by omega
  have hint : (n : ℚ) * pow2z ((p:ℤ) - e) = (((n * 2 ^ t : ℕ) : ℤ) : ℚ) := by
    rw [htz, pow2z_natCast]
    push_cast
    ring
  rw [hint, rhe_intCast]
  calc (((n * 2 ^ t : ℕ) : ℤ) : ℚ) * pow2z (e - (p:ℤ))
      = (n : ℚ) * ((2:ℚ) ^ t * pow2z (e - (p:ℤ))) := by push_cast; ring
  _ = (n : ℚ) * (pow2z (t : ℤ) * pow2z (e - (p:ℤ))) := by rw [pow2z_natCast]
  _ = (n : ℚ) * pow2z ((t : ℤ) + (e - (p:ℤ))) := by rw [pow2z_mul]
  _ = (n : ℚ) * pow2z 0 := by rw [show ((t : ℤ) + (e - (p:ℤ))) = 0 by omega]
  _ = (n : ℚ) := by rw [pow2z_zero]; ring

theorem roundFP_one (p : ℕ) : roundFP p 1 = 1 := by
  have := roundFP_natCast_eq (p := p) (n := 1) (by norm_num) (Nat.one_lt_two_pow (by omega))
  exact_mod_cast this

theorem roundFP_le_one {p : ℕ} {q : ℚ} (h1 : q ≤ 1) :
    roundFP p q ≤ 1 := by
  calc roundFP p q ≤ roundFP p 1 := roundFP_mono h1
  _ = 1 := roundFP_one p

theorem one_le_roundFP_natCast {p n : ℕ} (h : 1 ≤ n) : 1 ≤ roundFP p (n : ℚ) := by
  calc (1:ℚ) = roundFP p 1 := (roundFP_one p).symm
  _ ≤ roundFP p (n : ℚ) := roundFP_mono (by exact_mod_cast h)

/-- Deterministic evaluation rule for `roundFP` on positive rationals:
supply the exponent and the rounded mantissa explicitly. -/
theorem roundFP_eq_of {p : ℕ} {q : ℚ} {e m : ℤ} (hq : 0 < q)
    (hlow : pow2z e ≤ q) (hhigh : q < pow2z (e + 1))
    (hm : rhe (q * pow2z ((p:ℤ) - e)) = m) :
    roundFP p q = (m : ℚ) * pow2z (e - (p:ℤ)) := by
  have he : ratLog2 q = e := ratLog2_unique hq hlow hhigh
  unfold roundFP
  rw [if_pos hq]
  unfold roundPos
  rw [he, hm]

/-! ### Concrete evaluation rules for `rhe` -/

theorem rhe_eq_floor {x : ℚ} {f : ℤ} (h1 : ⌊x⌋ = f) (h2 : x - (f:ℚ) < 1/2) :
    rhe x = f := by
  unfold rhe Int.fract
  rw [h1]
  rw [if_pos h2]

theorem rhe_eq_floor_succ {x : ℚ} {f : ℤ} (h1 : ⌊x⌋ = f) (h2 : 1/2 < x - (f:ℚ)) :
    rhe x = f + 1 := by
  unfold rhe Int.fract
  rw [h1]
  rw [if_neg (by linarith), if_pos h2]

theorem rhe_eq_tie_even {x : ℚ} {f : ℤ} (h1 : ⌊x⌋ = f) (h2 : x - (f:ℚ) = 1/2)
    (h3 : f % 2 = 0) : rhe x = f := by
  unfold rhe Int.fract
  rw [h1]
  rw [if_neg (by rw [h2]; exact lt_irrefl _), if_neg (by rw [h2]; exact lt_irrefl _),
    if_pos h3]

/-! ### `filesystem_level_usage::Usage`

The struct holds a reference to the task config; only the two threshold
fields are consulted, so they are inlined here.  `max_usage_pct` is a
`Percent` (an integer in `0..=100`). -/

/-- Rust's saturating `as u64` cast applied to a finite `f64` value
(negative values clamp to `0`, values past `u64::MAX` clamp there). -/
def f64_as_u64 (q : ℚ) : ℕ :=
  if q ≤ 0 then 0 else min ⌊q⌋.toNat (2 ^ 64 - 1)

structure Usage where
  max_usage_pct : ℕ
  min_avail_bytes : ℕ
  total_bytes : ℕ
  avail_bytes : ℕ

/-- The `usage_pct` value computed inside `Usage::has_pressure`:
`(100.0 * (1.0 - ((self.avail_bytes as f64) / (self.total_bytes as f64)))) as u64`
with every operation in IEEE-754 double precision.  When `total_bytes = 0`
the division produces `NaN` or `±∞`, `1.0 - x` propagates it, and the
saturating cast maps the result (`NaN` or `-∞`) to `0`; the explicit branch
models that case. -/
def Usage.usage_pct (u : Usage) : ℕ :=
  if u.total_bytes = 0 then 0
  else f64_as_u64 (roundFP 52 (100 * roundFP 52 (1 - roundFP 52
    (roundFP 52 (u.avail_bytes : ℚ) / roundFP 52 (u.total_bytes : ℚ)))))

/-- `Usage::has_pressure`: pressure if available bytes are below
`min_avail_bytes` or the used percentage is at least `max_usage_pct`. -/
def Usage.has_pressure (u : Usage) : Bool :=
  decide (u.avail_bytes < u.min_avail_bytes) || decide (u.max_usage_pct ≤ u.usage_pct)

/-- `Usage::add_available_bytes`: `self.avail_bytes += bytes`. -/
def Usage.add_available_bytes (u : Usage) (bytes : ℕ) : Usage :=
  { u with avail_bytes := u.avail_bytes + bytes }

theorem f64_as_u64_mono {q q' : ℚ} (h : q ≤ q') : f64_as_u64 q ≤ f64_as_u64 q' := by
  unfold f64_as_u64
  by_cases h1 : q ≤ 0
  · rw [if_pos h1]
    exact Nat.zero_le _
  · rw [if_neg h1, if_neg (by linarith)]
    exact min_le_min (Int.toNat_le_toNat (Int.floor_mono h)) le_rfl

theorem usage_pct_anti (pct mn t a a' : ℕ) (h : a ≤ a') :
    Usage.usage_pct ⟨pct, mn, t, a'⟩ ≤ Usage.usage_pct ⟨pct, mn, t, a⟩ := by
  unfold Usage.usage_pct
  by_cases ht : t = 0
  · rw [if_pos ht, if_pos ht]
  · rw [if_neg ht, if_neg ht]
    apply f64_as_u64_mono
    apply roundFP_mono
    have hT : (1:ℚ) ≤ roundFP 52 ((t : ℕ) : ℚ) := one_le_roundFP_natCast (by omega)
    have hTpos : (0:ℚ) < roundFP 52 ((t : ℕ) : ℚ) := lt_of_lt_of_le zero_lt_one hT
    have hA : roundFP 52 ((a : ℕ) : ℚ) ≤ roundFP 52 ((a' : ℕ) : ℚ) :=
      roundFP_mono (by exact_mod_cast h)
    have hdiv : roundFP 52 ((a : ℕ) : ℚ) / roundFP 52 ((t : ℕ) : ℚ) ≤
        roundFP 52 ((a' : ℕ) : ℚ) / roundFP 52 ((t : ℕ) : ℚ) := by
      rw [div_eq_mul_inv, div_eq_mul_inv]
      exact mul_le_mul_of_nonneg_right hA (inv_nonneg.mpr hTpos.le)
    have hr := roundFP_mono (p := 52) hdiv
    have hs := roundFP_mono (p := 52) (show
      (1:ℚ) - roundFP 52 (roundFP 52 ((a' : ℕ) : ℚ) / roundFP 52 ((t : ℕ) : ℚ)) ≤
        1 - roundFP 52 (roundFP 52 ((a : ℕ) : ℚ) / roundFP 52 ((t : ℕ) : ℚ)) by linarith)
    exact mul_le_mul_of_nonneg_left hs (by norm_num)

/-- Claim C8: `add_available_bytes` is monotone toward relief: if a `Usage`
reports no pressure, then it still reports no pressure after any number of
available bytes is added; adding available bytes can only relieve pressure,
never create it. -/
theorem claim_C8 (u : Usage) (n : ℕ) (h : u.has_pressure = false) :
    (u.add_available_bytes n).has_pressure = false := by
  obtain ⟨pct, mn, t, a⟩ := u
  simp only [Usage.has_pressure, Usage.add_available_bytes, Bool.or_eq_false_iff,
    decide_eq_false_iff_not, not_lt, not_le] at h ⊢
  obtain ⟨h1, h2⟩ := h
  constructor
  · omega
  · have hanti := usage_pct_anti pct mn t a (a + n) (by omega)
    omega

/-- Witness for C8 at a concrete no-pressure `Usage`. -/
theorem claim_C8_witness :
    (Usage.has_pressure ⟨1, 3, 0, 5⟩ = false) ∧
      (Usage.has_pressure (Usage.add_available_bytes ⟨1, 3, 0, 5⟩ 2) = false) :=
  ⟨by decide, claim_C8 ⟨1, 3, 0, 5⟩ 2 (by decide)⟩

/-! ### Concrete IEEE-double evaluations for the pressure percentage -/

theorem ev_div_15000 : roundFP 52 ((3:ℚ)/20) = 5404319552844595 / 36028797018963968 := by
  have h := roundFP_eq_of (p := 52) (q := (3:ℚ)/20) (e := -3) (m := 5404319552844595)
    (by norm_num)
    (by rw [show (-3:ℤ) = -((3:ℕ):ℤ) by norm_num, pow2z_neg_natCast]; norm_num)
    (by rw [show ((-3:ℤ) + 1) = -((2:ℕ):ℤ) by norm_num, pow2z_neg_natCast]; norm_num)
    (by
      rw [show (((52:ℕ):ℤ) - (-3)) = ((55:ℕ):ℤ) by norm_num, pow2z_natCast]
      exact rhe_eq_floor (by norm_num) (by norm_num))
  rw [h, show ((-3:ℤ) - ((52:ℕ):ℤ)) = -((55:ℕ):ℤ) by norm_num, pow2z_neg_natCast]
  norm_num

theorem ev_sub_15000 :
    roundFP 52 (1 - (5404319552844595 / 36028797018963968 : ℚ)) =
      7656119366529843 / 9007199254740992 := by
  have h := roundFP_eq_of (p := 52)
    (q := 1 - (5404319552844595 / 36028797018963968 : ℚ))
    (e := -1) (m := 7656119366529843)
    (by norm_num)
    (by rw [show (-1:ℤ) = -((1:ℕ):ℤ) by norm_num, pow2z_neg_natCast]; norm_num)
    (by rw [show ((-1:ℤ) + 1) = (0:ℤ) by norm_num, pow2z_zero]; norm_num)
    (by
      rw [show (((52:ℕ):ℤ) - (-1)) = ((53:ℕ):ℤ) by norm_num, pow2z_natCast]
      exact rhe_eq_floor (by norm_num) (by norm_num))
  rw [h, show ((-1:ℤ) - ((52:ℕ):ℤ)) = -((53:ℕ):ℤ) by norm_num, pow2z_neg_natCast]
  norm_num

theorem ev_mul_15000 :
    roundFP 52 (100 * (7656119366529843 / 9007199254740992 : ℚ)) = 85 := by
  have h := roundFP_eq_of (p := 52)
    (q := 100 * (7656119366529843 / 9007199254740992 : ℚ))
    (e := 6) (m := 5981343255101440)
    (by norm_num)
    (by rw [show (6:ℤ) = ((6:ℕ):ℤ) by norm_num, pow2z_natCast]; norm_num)
    (by rw [show ((6:ℤ) + 1) = ((7:ℕ):ℤ) by norm_num, pow2z_natCast]; norm_num)
    (by
      rw [show (((52:ℕ):ℤ) - 6) = ((46:ℕ):ℤ) by norm_num, pow2z_natCast]
      exact (rhe_eq_floor_succ (f := 5981343255101439) (by norm_num) (by norm_num)).trans
        (by norm_num))
  rw [h, show ((6:ℤ) - ((52:ℕ):ℤ)) = -((46:ℕ):ℤ) by norm_num, pow2z_neg_natCast]
  norm_num

theorem ev_div_15001 :
    roundFP 52 ((15001:ℚ)/100000) = 5404679840814785 / 36028797018963968 := by
  have h := roundFP_eq_of (p := 52) (q := (15001:ℚ)/100000)
    (e := -3) (m := 5404679840814785)
    (by norm_num)
    (by rw [show (-3:ℤ) = -((3:ℕ):ℤ) by norm_num, pow2z_neg_natCast]; norm_num)
    (by rw [show ((-3:ℤ) + 1) = -((2:ℕ):ℤ) by norm_num, pow2z_neg_natCast]; norm_num)
    (by
      rw [show (((52:ℕ):ℤ) - (-3)) = ((55:ℕ):ℤ) by norm_num, pow2z_natCast]
      exact (rhe_eq_floor_succ (f := 5404679840814784) (by norm_num) (by norm_num)).trans
        (by norm_num))
  rw [h, show ((-3:ℤ) - ((52:ℕ):ℤ)) = -((55:ℕ):ℤ) by norm_num, pow2z_neg_natCast]
  norm_num

theorem ev_sub_15001 :
    roundFP 52 (1 - (5404679840814785 / 36028797018963968 : ℚ)) =
      478501830908581 / 562949953421312 := by
  have h := roundFP_eq_of (p := 52)
    (q := 1 - (5404679840814785 / 36028797018963968 : ℚ))
    (e := -1) (m := 7656029294537296)
    (by norm_num)
    (by rw [show (-1:ℤ) = -((1:ℕ):ℤ) by norm_num, pow2z_neg_natCast]; norm_num)
    (by rw [show ((-1:ℤ) + 1) = (0:ℤ) by norm_num, pow2z_zero]; norm_num)
    (by
      rw [show (((52:ℕ):ℤ) - (-1)) = ((53:ℕ):ℤ) by norm_num, pow2z_natCast]
      exact (rhe_eq_floor_succ (f := 7656029294537295) (by norm_num) (by norm_num)).trans
        (by norm_num))
  rw [h, show ((-1:ℤ) - ((52:ℕ):ℤ)) = -((53:ℕ):ℤ) by norm_num, pow2z_neg_natCast]
  norm_num

theorem ev_mul_15001 :
    roundFP 52 (100 * (478501830908581 / 562949953421312 : ℚ)) =
      2990636443178631 / 35184372088832 := by
  have h := roundFP_eq_of (p := 52)
    (q := 100 * (478501830908581 / 562949953421312 : ℚ))
    (e := 6) (m := 5981272886357262)
    (by norm_num)
    (by rw [show (6:ℤ) = ((6:ℕ):ℤ) by norm_num, pow2z_natCast]; norm_num)
    (by rw [show ((6:ℤ) + 1) = ((7:ℕ):ℤ) by norm_num, pow2z_natCast]; norm_num)
    (by
      rw [show (((52:ℕ):ℤ) - 6) = ((46:ℕ):ℤ) by norm_num, pow2z_natCast]
      exact rhe_eq_tie_even (f := 5981272886357262) (by norm_num) (by norm_num) (by norm_num))
  rw [h, show ((6:ℤ) - ((52:ℕ):ℤ)) = -((46:ℕ):ℤ) by norm_num, pow2z_neg_natCast]
  norm_num

theorem ev_avail_ce : roundFP 52 ((30000000000000001:ℚ)) = 30000000000000000 := by
  have h := roundFP_eq_of (p := 52) (q := (30000000000000001:ℚ))
    (e := 54) (m := 7500000000000000)
    (by norm_num)
    (by rw [show (54:ℤ) = ((54:ℕ):ℤ) by norm_num, pow2z_natCast]; norm_num)
    (by rw [show ((54:ℤ) + 1) = ((55:ℕ):ℤ) by norm_num, pow2z_natCast]; norm_num)
    (by
      rw [show (((52:ℕ):ℤ) - 54) = -((2:ℕ):ℤ) by norm_num, pow2z_neg_natCast]
      exact rhe_eq_floor (by norm_num) (by norm_num))
  rw [h, show ((54:ℤ) - ((52:ℕ):ℤ)) = ((2:ℕ):ℤ) by norm_num, pow2z_natCast]
  norm_num

theorem ev_total_ce : roundFP 52 ((200000000000000000:ℚ)) = 200000000000000000 := by
  have h := roundFP_eq_of (p := 52) (q := (200000000000000000:ℚ))
    (e := 57) (m := 6250000000000000)
    (by norm_num)
    (by rw [show (57:ℤ) = ((57:ℕ):ℤ) by norm_num, pow2z_natCast]; norm_num)
    (by rw [show ((57:ℤ) + 1) = ((58:ℕ):ℤ) by norm_num, pow2z_natCast]; norm_num)
    (by
      rw [show (((52:ℕ):ℤ) - 57) = -((5:ℕ):ℤ) by norm_num, pow2z_neg_natCast]
      exact rhe_eq_floor (by norm_num) (by norm_num))
  rw [h, show ((57:ℤ) - ((52:ℕ):ℤ)) = ((5:ℕ):ℤ) by norm_num, pow2z_natCast]
  norm_num

theorem pct_eval_15000 : Usage.usage_pct ⟨85, 0, 100000, 15000⟩ = 85 := by
  show (if (100000:ℕ) = 0 then 0
    else f64_as_u64 (roundFP 52 (100 * roundFP 52 (1 - roundFP 52
      (roundFP 52 ((15000:ℕ) : ℚ) / roundFP 52 ((100000:ℕ) : ℚ)))))) = 85
  rw [if_neg (by norm_num)]
  rw [show roundFP 52 ((15000:ℕ) : ℚ) = ((15000:ℕ) : ℚ) from
    roundFP_natCast_eq (by norm_num) (by norm_num)]
  rw [show roundFP 52 ((100000:ℕ) : ℚ) = ((100000:ℕ) : ℚ) from
    roundFP_natCast_eq (by norm_num) (by norm_num)]
  rw [show ((15000:ℕ) : ℚ) / ((100000:ℕ) : ℚ) = (3:ℚ)/20 by norm_num]
  rw [ev_div_15000, ev_sub_15000, ev_mul_15000]
  unfold f64_as_u64
  rw [if_neg (by norm_num)]
  norm_num
  decide

theorem pct_eval_15001 : Usage.usage_pct ⟨85, 0, 100000, 15001⟩ = 84 := by
  show (if (100000:ℕ) = 0 then 0
    else f64_as_u64 (roundFP 52 (100 * roundFP 52 (1 - roundFP 52
      (roundFP 52 ((15001:ℕ) : ℚ) / roundFP 52 ((100000:ℕ) : ℚ)))))) = 84
  rw [if_neg (by norm_num)]
  rw [show roundFP 52 ((15001:ℕ) : ℚ) = ((15001:ℕ) : ℚ) from
    roundFP_natCast_eq (by norm_num) (by norm_num)]
  rw [show roundFP 52 ((100000:ℕ) : ℚ) = ((100000:ℕ) : ℚ) from
    roundFP_natCast_eq (by norm_num) (by norm_num)]
  rw [show ((15001:ℕ) : ℚ) / ((100000:ℕ) : ℚ) = (15001:ℚ)/100000 by norm_num]
  rw [ev_div_15001, ev_sub_15001, ev_mul_15001]
  unfold f64_as_u64
  rw [if_neg (by norm_num)]
  norm_num
  decide

theorem pct_eval_ce :
    Usage.usage_pct ⟨85, 0, 200000000000000000, 30000000000000001⟩ = 85 := by
  show (if (200000000000000000:ℕ) = 0 then 0
    else f64_as_u64 (roundFP 52 (100 * roundFP 52 (1 - roundFP 52
      (roundFP 52 ((30000000000000001:ℕ) : ℚ) /
        roundFP 52 ((200000000000000000:ℕ) : ℚ)))))) = 85
  rw [if_neg (by norm_num)]
  rw [show ((30000000000000001:ℕ) : ℚ) = (30000000000000001:ℚ) by norm_num]
  rw [show ((200000000000000000:ℕ) : ℚ) = (200000000000000000:ℚ) by norm_num]
  rw [ev_avail_ce, ev_total_ce]
  rw [show (30000000000000000:ℚ) / 200000000000000000 = (3:ℚ)/20 by norm_num]
  rw [ev_div_15000, ev_sub_15000, ev_mul_15000]
  unfold f64_as_u64
  rw [if_neg (by norm_num)]
  norm_num
  decide

/-- The pressure predicate exactly as the specification's formula states it,
with exact rational arithmetic instead of `f64`:
`avail < min_avail_bytes ∨ ⌊100 * (1 - avail/total)⌋ ≥ max_usage_pct`. -/
def Usage.spec_has_pressure (u : Usage) : Prop :=
  u.avail_bytes < u.min_avail_bytes ∨
    (u.max_usage_pct : ℤ) ≤ ⌊(100:ℚ) * (1 - (u.avail_bytes : ℚ) / (u.total_bytes : ℚ))⌋

/-- Counterexample to claim C2: at `total = 2*10^17`,
`avail = 3*10^16 + 1`, `max_usage_pct = 85`, `min_avail_bytes = 0`, the
code's `f64` percentage rounds up to exactly `85.0`, so `has_pressure`
returns `true`, while the exact formula `⌊100 * (1 - avail/total)⌋` of the
claim yields `84`, i.e. no pressure. -/
theorem claim_C2_counterexample :
    Usage.has_pressure ⟨85, 0, 200000000000000000, 30000000000000001⟩ = true ∧
      ¬ Usage.spec_has_pressure ⟨85, 0, 200000000000000000, 30000000000000001⟩ := by
  constructor
  · simp only [Usage.has_pressure, pct_eval_ce]
    norm_num
  · unfold Usage.spec_has_pressure
    push_neg
    constructor
    · norm_num
    · rw [show ⌊(100:ℚ) * (1 - ((Usage.mk 85 0 200000000000000000 30000000000000001).avail_bytes : ℚ) /
          ((Usage.mk 85 0 200000000000000000 30000000000000001).total_bytes : ℚ))⌋ = 84 by norm_num]
      norm_num

/-- Claim C2 (amended): `has_pressure` is the disjunction of the
`min_avail_bytes` check with the check that the *IEEE-double computed*
percentage (truncated to `u64`) is at least `max_usage_pct`; at the
boundary instance `total = 100000`, `max_usage_pct = 85`,
`min_avail_bytes = 0` it agrees with the exact formula
`⌊100 * (1 - avail/total)⌋ ≥ max_usage_pct`: pressure holds at
`avail = 15000` (exactly 85 %) and fails at `avail = 15001`.  (For large
field values the computed percentage can differ from the exact floor, see
the counterexample.) -/
theorem claim_C2 :
    (∀ u : Usage, u.has_pressure = true ↔
        (u.avail_bytes < u.min_avail_bytes ∨ u.max_usage_pct ≤ u.usage_pct)) ∧
      Usage.has_pressure ⟨85, 0, 100000, 15000⟩ = true ∧
      Usage.spec_has_pressure ⟨85, 0, 100000, 15000⟩ ∧
      Usage.has_pressure ⟨85, 0, 100000, 15001⟩ = false ∧
      ¬ Usage.spec_has_pressure ⟨85, 0, 100000, 15001⟩ := by
  refine ⟨?_, ?_, ?_, ?_, ?_⟩
  · intro u
    unfold Usage.has_pressure
    rw [Bool.or_eq_true, decide_eq_true_eq, decide_eq_true_eq]
  · simp only [Usage.has_pressure, pct_eval_15000]
    norm_num
  · unfold Usage.spec_has_pressure
    right
    rw [show ⌊(100:ℚ) * (1 - ((Usage.mk 85 0 100000 15000).avail_bytes : ℚ) /
        ((Usage.mk 85 0 100000 15000).total_bytes : ℚ))⌋ = 85 by norm_num]
    norm_num
  · simp only [Usage.has_pressure, pct_eval_15001]
    norm_num
  · unfold Usage.spec_has_pressure
    push_neg
    constructor
    · norm_num
    · rw [show ⌊(100:ℚ) * (1 - ((Usage.mk 85 0 100000 15001).avail_bytes : ℚ) /
          ((Usage.mk 85 0 100000 15001).total_bytes : ℚ))⌋ = 84 by norm_num]
      norm_num

/-! ### `finite_f32::FiniteF32`

A `FiniteF32` wraps an `f32` guaranteed finite; in the model the wrapped
value is the exact rational it denotes.  Inputs to `try_from_normalized`
may be any `f32`: `NaN`, the infinities, the negative zero, or a finite
numeric value. -/

inductive F32 where
  | nan
  | posInf
  | negInf
  | negZero
  | val (q : ℚ)
deriving DecidableEq

/-- Numeric value of a comparable (finite) `f32`; `-0.0` denotes `0`.
Junk value `0` on `NaN`/infinities, which the comparison below never
consults. -/
def F32.toRat : F32 → ℚ
  | .negZero => 0
  | .val q => q
  | _ => 0

/-- IEEE-754 `<=` on `f32` values: false on `NaN` operands, `-∞` below
everything, `+∞` above everything, numeric comparison otherwise
(`-0.0 == 0.0`). -/
def F32.le : F32 → F32 → Bool
  | .nan, _ => false
  | _, .nan => false
  | .negInf, _ => true
  | _, .negInf => false
  | _, .posInf => true
  | .posInf, _ => false
  | x, y => decide (x.toRat ≤ y.toRat)

/-- `FiniteF32::try_from_normalized`: accept when `(0.0..=1.0).contains(&value)`
(that is `0.0 <= value && value <= 1.0`), normalize via `value.abs()` (turning
`-0.0` into `0.0`), and reject everything else — including `NaN` and the
infinities, which fail the range check — returning the offending input. -/
def try_from_normalized (v : F32) : Except F32 ℚ :=
  if F32.le (.val 0) v && F32.le v (.val 1) then .ok |v.toRat| else .error v

/-- Claim C9: `try_from_normalized` returns `Ok` exactly on the closed
interval `[0, 1]` (with `-0.0` normalized to `0.0` in the returned value)
and returns `Err` with the offending input on everything else, including
`NaN` and the infinities. -/
theorem claim_C9 :
    (∀ q : ℚ, 0 ≤ q → q ≤ 1 → try_from_normalized (.val q) = .ok q) ∧
      (∀ q : ℚ, q < 0 ∨ 1 < q → try_from_normalized (.val q) = .error (.val q)) ∧
      try_from_normalized .negZero = .ok 0 ∧
      try_from_normalized .nan = .error .nan ∧
      try_from_normalized .posInf = .error .posInf ∧
      try_from_normalized .negInf = .error .negInf := by
  refine ⟨?_, ?_, ?_, rfl, rfl, rfl⟩
  · intro q h0 h1
    unfold try_from_normalized
    rw [if_pos]
    · rw [show F32.toRat (.val q) = q from rfl, abs_of_nonneg h0]
    · show (decide (F32.toRat (.val 0) ≤ F32.toRat (.val q)) &&
        decide (F32.toRat (.val q) ≤ F32.toRat (.val 1))) = true
      rw [show F32.toRat (.val 0) = 0 from rfl, show F32.toRat (.val 1) = 1 from rfl,
        show F32.toRat (.val q) = q from rfl]
      rw [decide_eq_true h0, decide_eq_true h1]
      rfl
  · intro q h
    unfold try_from_normalized
    rw [if_neg]
    show ¬((decide (F32.toRat (.val 0) ≤ F32.toRat (.val q)) &&
      decide (F32.toRat (.val q) ≤ F32.toRat (.val 1))) = true)
    rw [show F32.toRat (.val 0) = 0 from rfl, show F32.toRat (.val 1) = 1 from rfl,
      show F32.toRat (.val q) = q from rfl]
    rcases h with h | h
    · rw [decide_eq_false (not_le.mpr h)]
      simp
    · rw [decide_eq_false (not_le.mpr h)]
      simp
  · rfl

/-- Witness for C9 at concrete inputs. -/
theorem claim_C9_witness :
    try_from_normalized (.val (1/2)) = .ok (1/2) ∧
      try_from_normalized (.val 2) = .error (.val 2) :=
  ⟨claim_C9.1 (1/2) (by norm_num) (by norm_num),
    claim_C9.2.1 2 (Or.inr (by norm_num))⟩

/-! ### Candidate collection (`collect_eviction_candidates`)

The tenant registry is modelled by the data the collection pass reads from
it: for each tenant its `min_resident_size_override` and, per timeline, the
active flag, the resident layers (file size and last-activity timestamp)
and the reported `max_layer_size`.  Tenants that were skipped (shutting
down or transiently unreachable) are simply absent from the input list;
`SystemTime` instants are abstract ticks. -/

inductive EvictionOrder where
  | absoluteAccessed
  | relativeAccessed (b : Bool)
deriving DecidableEq

/-- `EvictionOrder::highest_layer_count_loses_first`. -/
def EvictionOrder.highest_layer_count_loses_first : EvictionOrder → Bool
  | .absoluteAccessed => false
  | .relativeAccessed b => b

structure LayerInfo where
  file_size : ℕ
  last_activity_ts : ℕ
deriving DecidableEq

structure TimelineData where
  is_active : Bool
  resident_layers : List LayerInfo
  max_layer_size : Option ℕ
deriving DecidableEq

structure TenantData where
  min_resident_size_override : Option ℕ
  timelines : List TimelineData
deriving DecidableEq

/-- The per-tenant inner loop over timelines: skip inactive timelines,
concatenate their resident layers in timeline order, and accumulate the
maximum reported `max_layer_size` (with `unwrap_or(0)`), starting from
`max_layer_size = 0`. -/
def collect_timelines : List TimelineData → List LayerInfo × ℕ
  | [] => ([], 0)
  | tl :: rest =>
    let r := collect_timelines rest
    if tl.is_active then (tl.resident_layers ++ r.1, max (tl.max_layer_size.getD 0) r.2)
    else r

/-- The tenant's `min_resident_size`: the tenant-config override if set,
else the maximum observed layer size. -/
def min_resident_size (t : TenantData) : ℕ :=
  match t.min_resident_size_override with
  | some s => s
  | none => (collect_timelines t.timelines).2

/-- `sort_unstable_by_key(|(_, layer_info)| Reverse(layer_info.last_activity_ts))`:
sort the tenant's layers most-recently-used first.  (`sort_unstable` is some
sorted permutation; the model fixes one.) -/
def sort_mru (ls : List LayerInfo) : List LayerInfo :=
  List.insertionSort (fun a b => b.last_activity_ts ≤ a.last_activity_ts) ls

/-- The `fudge` subtracted from the tenant's layer count: `0` when
`highest_layer_count_loses_first`, else `1`. -/
def fudge (o : EvictionOrder) : ℕ :=
  if o.highest_layer_count_loses_first then 0 else 1

/-- `total` (and the `divider`):
`tenant_candidates.len().checked_sub(fudge).filter(|&x| x > 0).unwrap_or(1)`. -/
def total_divider (o : EvictionOrder) (n : ℕ) : ℕ :=
  (((if fudge o ≤ n then some (n - fudge o) else none).filter
    (fun x => decide (0 < x))).getD 1)

/-- The `relative_last_activity` key for the `i`-th candidate of a tenant
with divider `t` (both already MRU-sorted): in `RelativeAccessed` mode,
`FiniteF32::try_from_normalized((total - i) as f32 / divider)` with
`FiniteF32::ZERO` as fallback for invalid values; `FiniteF32::ZERO` in
`AbsoluteAccessed` mode. -/
def relative_last_activity (o : EvictionOrder) (t i : ℕ) : ℚ :=
  match o with
  | .absoluteAccessed => 0
  | .relativeAccessed _ =>
    match try_from_normalized
        (.val (roundFP 23 (roundFP 23 ((t - i : ℕ) : ℚ) / roundFP 23 ((t : ℕ) : ℚ)))) with
    | .ok v => v
    | .error _ => 0

inductive MinResidentSizePartition where
  | above
  | below
deriving DecidableEq

/-- The derived `Ord` on the partition enum: `Above < Below`, so `Above`
layers sort (and hence evict) first. -/
def MinResidentSizePartition.rank : MinResidentSizePartition → ℕ
  | .above => 0
  | .below => 1

structure EvictionCandidate where
  file_size : ℕ
  last_activity_ts : ℕ
  relative_last_activity : ℚ
deriving DecidableEq

/-- The per-tenant partition-and-key loop: walk the MRU-sorted layers with
a running `cumsum` of file sizes; a layer whose preceding cumulative sum
strictly exceeds `min_resident_size` `s` goes to `Above`, otherwise
`Below`; then the layer's own size is added to `cumsum`. -/
def build_candidates (o : EvictionOrder) (t s : ℕ) :
    ℕ → ℕ → List LayerInfo → List (MinResidentSizePartition × EvictionCandidate)
  | _, _, [] => []
  | i, cumsum, l :: rest =>
    (if s < cumsum then .above else .below,
      ⟨l.file_size, l.last_activity_ts, relative_last_activity o t i⟩) ::
      build_candidates o t s (i+1) (cumsum + l.file_size) rest

/-- All candidates contributed by one tenant, in MRU order with their
partitions and relative keys. -/
def tenant_candidates (o : EvictionOrder) (td : TenantData) :
    List (MinResidentSizePartition × EvictionCandidate) :=
  build_candidates o
    (total_divider o (sort_mru (collect_timelines td.timelines).1).length)
    (min_resident_size td) 0 0 (sort_mru (collect_timelines td.timelines).1)

/-- Lexicographic order on `(ℕ, ·)` pairs, mirroring Rust's tuple `Ord`. -/
def lexLe {α : Type} (r : α → α → Prop) (x y : ℕ × α) : Prop :=
  x.1 < y.1 ∨ (x.1 = y.1 ∧ r x.2 y.2)

def sort_key_abs (x : MinResidentSizePartition × EvictionCandidate) : ℕ × ℕ :=
  (x.1.rank, x.2.last_activity_ts)

def sort_key_rel (x : MinResidentSizePartition × EvictionCandidate) : ℕ × ℚ :=
  (x.1.rank, x.2.relative_last_activity)

/-- The final global sort key: `(partition, last_activity_ts)` under
`AbsoluteAccessed`, `(partition, relative_last_activity)` under
`RelativeAccessed`. -/
def cand_le (o : EvictionOrder) (x y : MinResidentSizePartition × EvictionCandidate) :
    Prop :=
  match o with
  | .absoluteAccessed => lexLe (· ≤ ·) (sort_key_abs x) (sort_key_abs y)
  | .relativeAccessed _ => lexLe (· ≤ ·) (sort_key_rel x) (sort_key_rel y)

instance lexLe_decidable {α : Type} (r : α → α → Prop) [DecidableRel r] :
    DecidableRel (lexLe r) := fun x y =>
  inferInstanceAs (Decidable (x.1 < y.1 ∨ (x.1 = y.1 ∧ r x.2 y.2)))

instance cand_le_decidable (o : EvictionOrder) : DecidableRel (cand_le o) := fun x y =>
  match o with
  | .absoluteAccessed =>
    inferInstanceAs (Decidable (lexLe (· ≤ ·) (sort_key_abs x) (sort_key_abs y)))
  | .relativeAccessed _ =>
    inferInstanceAs (Decidable (lexLe (· ≤ ·) (sort_key_rel x) (sort_key_rel y)))

theorem lexLe_total {α : Type} {r : α → α → Prop} (hr : ∀ a b, r a b ∨ r b a)
    (x y : ℕ × α) : lexLe r x y ∨ lexLe r y x := by
  unfold lexLe
  rcases Nat.lt_trichotomy x.1 y.1 with h | h | h
  · exact Or.inl (Or.inl h)
  · rcases hr x.2 y.2 with h2 | h2
    · exact Or.inl (Or.inr ⟨h, h2⟩)
    · exact Or.inr (Or.inr ⟨h.symm, h2⟩)
  · exact Or.inr (Or.inl h)

theorem lexLe_trans {α : Type} {r : α → α → Prop}
    (hr : ∀ a b c, r a b → r b c → r a c) {x y z : ℕ × α}
    (h1 : lexLe r x y) (h2 : lexLe r y z) : lexLe r x z := by
  unfold lexLe at h1 h2 ⊢
  rcases h1 with h1 | ⟨h1e, h1r⟩
  · rcases h2 with h2 | ⟨h2e, h2r⟩
    · exact Or.inl (lt_trans h1 h2)
    · exact Or.inl (h2e ▸ h1)
  · rcases h2 with h2 | ⟨h2e, h2r⟩
    · exact Or.inl (h1e ▸ h2)
    · exact Or.inr ⟨h1e.trans h2e, hr _ _ _ h1r h2r⟩

instance cand_le_total (o : EvictionOrder) :
    IsTotal (MinResidentSizePartition × EvictionCandidate) (cand_le o) := by
  constructor
  intro x y
  cases o with
  | absoluteAccessed => exact lexLe_total (fun a b => Nat.le_total a b) _ _
  | relativeAccessed b =>
    show lexLe (· ≤ ·) (sort_key_rel x) (sort_key_rel y) ∨
      lexLe (· ≤ ·) (sort_key_rel y) (sort_key_rel x)
    exact lexLe_total (fun a b => le_total a b) _ _

instance cand_le_trans (o : EvictionOrder) :
    IsTrans (MinResidentSizePartition × EvictionCandidate) (cand_le o) := by
  constructor
  intro x y z h1 h2
  cases o with
  | absoluteAccessed =>
    have h1' : lexLe (· ≤ ·) (sort_key_abs x) (sort_key_abs y) := h1
    have h2' : lexLe (· ≤ ·) (sort_key_abs y) (sort_key_abs z) := h2
    exact lexLe_trans (r := (· ≤ ·)) (fun a b c hab hbc => Nat.le_trans hab hbc) h1' h2'
  | relativeAccessed b =>
    have h1' : lexLe (· ≤ ·) (sort_key_rel x) (sort_key_rel y) := h1
    have h2' : lexLe (· ≤ ·) (sort_key_rel y) (sort_key_rel z) := h2
    exact lexLe_trans (r := (· ≤ ·)) (fun a b c hab hbc => le_trans hab hbc) h1' h2'

/-- `collect_eviction_candidates`: all tenants' candidates in one flat
list, then one global sort by `(partition, age key)`. -/
def collect_eviction_candidates (o : EvictionOrder) (tenants : List TenantData) :
    List (MinResidentSizePartition × EvictionCandidate) :=
  List.insertionSort (cand_le o) (tenants.flatMap (tenant_candidates o))

/-! ### Facts about the collection pass -/

theorem collect_timelines_snd (tls : List TimelineData) :
    (collect_timelines tls).2 =
      ((tls.filter (fun tl => tl.is_active)).map
        (fun tl => tl.max_layer_size.getD 0)).foldr max 0 := by
  induction tls with
  | nil => rfl
  | cons tl rest ih =>
    by_cases h : tl.is_active
    · simp [collect_timelines, List.filter_cons, h, ih]
    · simp [collect_timelines, List.filter_cons, h, ih]

/-- Claim C7: the tenant's `min_resident_size` used for partitioning is the
tenant-level override when set, and otherwise the maximum layer size
observed across the tenant's active timelines (zero when there is none). -/
theorem claim_C7 (t : TenantData) :
    min_resident_size t = t.min_resident_size_override.getD
      (((t.timelines.filter (fun tl => tl.is_active)).map
        (fun tl => tl.max_layer_size.getD 0)).foldr max 0) := by
  unfold min_resident_size
  cases h : t.min_resident_size_override with
  | some s => simp [h]
  | none => simp [h, collect_timelines_snd]

theorem build_candidates_length (o : EvictionOrder) (t s : ℕ) :
    ∀ (ls : List LayerInfo) (i c : ℕ), (build_candidates o t s i c ls).length = ls.length := by
  intro ls
  induction ls with
  | nil => intro i c; rfl
  | cons l rest ih =>
    intro i c
    simp [build_candidates, ih]

/-- Sum of the file sizes of the first `k` layers. -/
def sizes_sum (ls : List LayerInfo) (k : ℕ) : ℕ :=
  ((ls.take k).map (fun l => l.file_size)).sum

theorem sizes_sum_nil (k : ℕ) : sizes_sum [] k = 0 := by
  simp [sizes_sum]

theorem sizes_sum_zero (ls : List LayerInfo) : sizes_sum ls 0 = 0 := by
  simp [sizes_sum]

theorem sizes_sum_cons_succ (l : LayerInfo) (rest : List LayerInfo) (k : ℕ) :
    sizes_sum (l :: rest) (k + 1) = l.file_size + sizes_sum rest k := by
  simp [sizes_sum]

theorem sizes_sum_mono (ls : List LayerInfo) :
    ∀ (k k' : ℕ), k ≤ k' → sizes_sum ls k ≤ sizes_sum ls k' := by
  induction ls with
  | nil => intro k k' h; simp [sizes_sum_nil]
  | cons l rest ih =>
    intro k k' h
    cases k with
    | zero => simp [sizes_sum_zero]
    | succ a =>
      cases k' with
      | zero => omega
      | succ b =>
        rw [sizes_sum_cons_succ, sizes_sum_cons_succ]
        have := ih a b (by omega)
        omega

/-- Positional description of the per-tenant loop: the `i`-th produced
candidate carries the `i`-th layer's data, the key for running index
`i0 + i`, and the partition determined by comparing the cumulative size of
the strictly earlier layers (`c` plus the sizes of the first `i` of `ls`)
against `s`. -/
theorem build_candidates_getElem? (o : EvictionOrder) (t s : ℕ) :
    ∀ (ls : List LayerInfo) (i0 c i : ℕ),
      (build_candidates o t s i0 c ls)[i]? = (ls[i]?).map (fun l' =>
        ((if s < c + sizes_sum ls i then MinResidentSizePartition.above else .below),
          ⟨l'.file_size, l'.last_activity_ts, relative_last_activity o t (i0 + i)⟩)) := by
  intro ls
  induction ls with
  | nil => intro i0 c i; simp [build_candidates]
  | cons l rest ih =>
    intro i0 c i
    cases i with
    | zero =>
      simp [build_candidates, sizes_sum_zero]
    | succ i' =>
      rw [build_candidates]
      rw [List.getElem?_cons_succ, List.getElem?_cons_succ, ih (i0+1) (c + l.file_size) i']
      rw [sizes_sum_cons_succ]
      have harith : c + (l.file_size + sizes_sum rest i') = c + l.file_size + sizes_sum rest i' := by
        omega
      rw [harith, show i0 + (i' + 1) = i0 + 1 + i' by omega]

/-- Claim C10: a tenant that contributes at least one resident layer always
has its most-recently-used layer in the `Below` partition, whatever the
`min_resident_size` (even zero): the partition test compares the cumulative
size of strictly earlier layers — initially `0` — strictly against
`min_resident_size` before the layer's own size is added. -/
theorem claim_C10 (o : EvictionOrder) (td : TenantData)
    (h : (collect_timelines td.timelines).1 ≠ []) :
    (tenant_candidates o td).head?.map (fun x => x.1) =
      some MinResidentSizePartition.below := by
  unfold tenant_candidates
  have hlen : (sort_mru (collect_timelines td.timelines).1).length =
      (collect_timelines td.timelines).1.length :=
    List.length_insertionSort _ _
  have hpos : 0 < (collect_timelines td.timelines).1.length := List.length_pos.mpr h
  cases hL : sort_mru (collect_timelines td.timelines).1 with
  | nil =>
    rw [hL] at hlen
    simp at hlen
    omega
  | cons a rest =>
    rw [build_candidates]
    rw [if_neg (Nat.not_lt_zero _)]
    rfl

/-- Witness for C10 at a concrete one-layer tenant. -/
theorem claim_C10_witness :
    (collect_timelines (TenantData.mk (some 0) [⟨true, [⟨1, 0⟩], some 1⟩]).timelines).1 ≠ [] ∧
      (tenant_candidates .absoluteAccessed
        (TenantData.mk (some 0) [⟨true, [⟨1, 0⟩], some 1⟩])).head?.map (fun x => x.1) =
          some MinResidentSizePartition.below :=
  ⟨by decide, claim_C10 .absoluteAccessed _ (by decide)⟩

/-- Acceptance case of `try_from_normalized` (shared helper). -/
theorem try_from_normalized_ok {q : ℚ} (h0 : 0 ≤ q) (h1 : q ≤ 1) :
    try_from_normalized (.val q) = .ok q := by
  unfold try_from_normalized
  rw [if_pos]
  · rw [show F32.toRat (.val q) = q from rfl, abs_of_nonneg h0]
  · show (decide (F32.toRat (.val 0) ≤ F32.toRat (.val q)) &&
      decide (F32.toRat (.val q) ≤ F32.toRat (.val 1))) = true
    rw [show F32.toRat (.val 0) = 0 from rfl, show F32.toRat (.val 1) = 1 from rfl,
      show F32.toRat (.val q) = q from rfl]
    rw [decide_eq_true h0, decide_eq_true h1]
    rfl

/-- Claim C1 (corrected form): let `L` be a tenant's resident layers sorted
MRU-first and `S` its min-resident-size, and let `j` be the smallest index
such that the sum of sizes of `L[0..=j]` strictly exceeds `S`.  Then the
layers `L[0..=j]` are assigned `Below` and the layers `L[j+1..]` are
assigned `Above`.  (The claim as stated put the boundary layer `j` itself
in `Above` — and hence, for `S = 0`, every layer in `Above` — but the code
compares only the cumulative size of the strictly earlier layers against
`S`.) -/
theorem claim_C1 (o : EvictionOrder) (td : TenantData) (j i : ℕ)
    (hj : min_resident_size td <
      sizes_sum (sort_mru (collect_timelines td.timelines).1) (j+1))
    (hmin : ∀ j', j' < j →
      ¬ min_resident_size td <
        sizes_sum (sort_mru (collect_timelines td.timelines).1) (j'+1))
    (hi : i < (sort_mru (collect_timelines td.timelines).1).length) :
    ((tenant_candidates o td)[i]?).map (fun x => x.1) =
      some (if i ≤ j then MinResidentSizePartition.below else .above) := by
  unfold tenant_candidates
  rw [build_candidates_getElem?]
  rw [List.getElem?_eq_getElem hi]
  simp only [Option.map_some']
  congr 1
  by_cases hij : i ≤ j
  · rw [if_neg, if_pos hij]
    rw [Nat.zero_add]
    cases i with
    | zero =>
      rw [sizes_sum_zero]
      omega
    | succ i' =>
      have := hmin i' (by omega)
      omega
  · rw [if_pos, if_neg hij]
    rw [Nat.zero_add]
    have hmono := sizes_sum_mono (sort_mru (collect_timelines td.timelines).1)
      (j+1) i (by omega)
    omega

/-- Witness for (corrected) C1: tenant with three layers of size 100,
`min_resident_size = 150`, so `j = 1`; the layer at index 2 is `Above`. -/
theorem claim_C1_witness :
    (min_resident_size ⟨some 150, [⟨true, [⟨100, 30⟩, ⟨100, 20⟩, ⟨100, 10⟩], some 100⟩]⟩ <
      sizes_sum (sort_mru (collect_timelines
        (TenantData.mk (some 150)
          [⟨true, [⟨100, 30⟩, ⟨100, 20⟩, ⟨100, 10⟩], some 100⟩]).timelines).1) (1+1)) ∧
    (2 < (sort_mru (collect_timelines
      (TenantData.mk (some 150)
        [⟨true, [⟨100, 30⟩, ⟨100, 20⟩, ⟨100, 10⟩], some 100⟩]).timelines).1).length) ∧
    ((tenant_candidates .absoluteAccessed
      (TenantData.mk (some 150)
        [⟨true, [⟨100, 30⟩, ⟨100, 20⟩, ⟨100, 10⟩], some 100⟩]))[2]?).map (fun x => x.1) =
      some (if 2 ≤ 1 then MinResidentSizePartition.below else .above) :=
  ⟨by decide, by decide,
    claim_C1 .absoluteAccessed _ 1 2 (by decide)
      (fun j' hj' => by interval_cases j'; decide) (by decide)⟩

/-- Counterexample to claim C1 as stated: a tenant with a single resident
layer of size 1 and `min_resident_size = 0`.  Here `j = 0` (the sum of
sizes of `L[0..=0]` is `1 > 0`), so the claim (`L[j..]` in `Above`; in
particular all layers `Above` when `S = 0`) predicts the layer at index 0
to be `Above`, while the code assigns it `Below`. -/
theorem claim_C1_counterexample :
    min_resident_size ⟨some 0, [⟨true, [⟨1, 0⟩], some 1⟩]⟩ = 0 ∧
      sizes_sum (sort_mru (collect_timelines
        (TenantData.mk (some 0) [⟨true, [⟨1, 0⟩], some 1⟩]).timelines).1) 1 = 1 ∧
      ((tenant_candidates .absoluteAccessed
        (TenantData.mk (some 0) [⟨true, [⟨1, 0⟩], some 1⟩]))[0]?).map (fun x => x.1) =
        some MinResidentSizePartition.below ∧
      some MinResidentSizePartition.below ≠ some MinResidentSizePartition.above := by
  refine ⟨by decide, by decide, by decide, by decide⟩

theorem total_divider_eq (o : EvictionOrder) (n : ℕ) :
    total_divider o n = max 1 (n - fudge o) := by
  unfold total_divider
  by_cases h1 : fudge o ≤ n
  · rw [if_pos h1]
    by_cases h2 : 0 < n - fudge o
    · simp [Option.filter, h2]
      omega
    · simp [Option.filter, h2]
      omega
  · rw [if_neg h1]
    simp [Option.filter]
    omega

theorem one_le_total_divider (o : EvictionOrder) (n : ℕ) : 1 ≤ total_divider o n := by
  rw [total_divider_eq]
  omega

/-- Claim C6: under `RelativeAccessed` ordering with flag `b`, for a tenant
with `n` resident layers: `fudge` is `0` when
`highest_layer_count_loses_first` and `1` otherwise,
`total = max 1 (n - fudge)`, the `i`-th candidate in MRU order gets
`relative_last_activity` equal to the `f32` computation
`(total - i) as f32 / total as f32`, every key is finite (the normalization
never falls back to `ZERO`) and lies in `[0, 1]`, and the MRU candidate
(`i = 0`) gets the tenant's largest key, exactly `1`.  The final conjunct
ties the key to the candidate actually produced by the collection pass. -/
theorem claim_C6 (b : Bool) (n i t : ℕ) (td : TenantData)
    (ht : t = total_divider (EvictionOrder.relativeAccessed b) n)
    (hn : n = (sort_mru (collect_timelines td.timelines).1).length)
    (hi : i < n) :
    fudge (EvictionOrder.relativeAccessed b) = (if b then 0 else 1) ∧
    t = max 1 (n - fudge (EvictionOrder.relativeAccessed b)) ∧
    relative_last_activity (EvictionOrder.relativeAccessed b) t i =
      roundFP 23 (roundFP 23 ((t - i : ℕ) : ℚ) / roundFP 23 ((t : ℕ) : ℚ)) ∧
    0 ≤ relative_last_activity (EvictionOrder.relativeAccessed b) t i ∧
    relative_last_activity (EvictionOrder.relativeAccessed b) t i ≤ 1 ∧
    relative_last_activity (EvictionOrder.relativeAccessed b) t i ≤
      relative_last_activity (EvictionOrder.relativeAccessed b) t 0 ∧
    relative_last_activity (EvictionOrder.relativeAccessed b) t 0 = 1 ∧
    ((tenant_candidates (EvictionOrder.relativeAccessed b) td)[i]?).map
        (fun x => x.2.relative_last_activity) =
      some (relative_last_activity (EvictionOrder.relativeAccessed b) t i) := by
  have hden1 : (1:ℚ) ≤ roundFP 23 ((t : ℕ) : ℚ) := by
    apply one_le_roundFP_natCast
    rw [ht]
    exact one_le_total_divider _ n
  have hdenpos : (0:ℚ) < roundFP 23 ((t : ℕ) : ℚ) := lt_of_lt_of_le zero_lt_one hden1
  have keyval : ∀ k : ℕ,
      relative_last_activity (EvictionOrder.relativeAccessed b) t k =
        roundFP 23 (roundFP 23 ((t - k : ℕ) : ℚ) / roundFP 23 ((t : ℕ) : ℚ)) := by
    intro k
    have hnum : (0:ℚ) ≤ roundFP 23 ((t - k : ℕ) : ℚ) := roundFP_nonneg (Nat.cast_nonneg _)
    have hle : roundFP 23 ((t - k : ℕ) : ℚ) ≤ roundFP 23 ((t : ℕ) : ℚ) := by
      apply roundFP_mono
      exact_mod_cast Nat.sub_le t k
    have hq0 : (0:ℚ) ≤ roundFP 23 ((t - k : ℕ) : ℚ) / roundFP 23 ((t : ℕ) : ℚ) :=
      div_nonneg hnum hdenpos.le
    have hq1 : roundFP 23 ((t - k : ℕ) : ℚ) / roundFP 23 ((t : ℕ) : ℚ) ≤ 1 :=
      (div_le_one hdenpos).mpr hle
    unfold relative_last_activity
    rw [try_from_normalized_ok (roundFP_nonneg hq0) (roundFP_le_one hq1)]
  have key0 : relative_last_activity (EvictionOrder.relativeAccessed b) t 0 = 1 := by
    rw [keyval 0]
    rw [Nat.sub_zero]
    rw [div_self (ne_of_gt hdenpos)]
    exact roundFP_one 23
  have keyi0 : 0 ≤ relative_last_activity (EvictionOrder.relativeAccessed b) t i := by
    rw [keyval i]
    apply roundFP_nonneg
    apply div_nonneg (roundFP_nonneg (Nat.cast_nonneg _)) hdenpos.le
  have keyi1 : relative_last_activity (EvictionOrder.relativeAccessed b) t i ≤ 1 := by
    rw [keyval i]
    apply roundFP_le_one
    apply (div_le_one hdenpos).mpr
    apply roundFP_mono
    exact_mod_cast Nat.sub_le t i
  refine ⟨rfl, by rw [ht, total_divider_eq], keyval i, keyi0, keyi1, ?_, key0, ?_⟩
  · rw [key0]
    exact keyi1
  · unfold tenant_candidates
    rw [build_candidates_getElem?]
    rw [List.getElem?_eq_getElem (by omega : i < (sort_mru (collect_timelines td.timelines).1).length)]
    simp only [Option.map_some']
    rw [Nat.zero_add, ← hn, ← ht]

/-- Witness for C6: three layers, flag false, so `total = 2`; the middle
candidate. -/
theorem claim_C6_witness :
    ((2:ℕ) = total_divider (EvictionOrder.relativeAccessed false) 3) ∧
      ((3:ℕ) = (sort_mru (collect_timelines
        (TenantData.mk none [⟨true, [⟨5, 3⟩, ⟨6, 2⟩, ⟨7, 1⟩], some 7⟩]).timelines).1).length) ∧
      (1 < 3) ∧
      (relative_last_activity (EvictionOrder.relativeAccessed false) 2 1 =
        roundFP 23 (roundFP 23 ((2 - 1 : ℕ) : ℚ) / roundFP 23 ((2 : ℕ) : ℚ)) ∧
        relative_last_activity (EvictionOrder.relativeAccessed false) 2 0 = 1) := by
  have h := claim_C6 false 3 1 2
    (TenantData.mk none [⟨true, [⟨5, 3⟩, ⟨6, 2⟩, ⟨7, 1⟩], some 7⟩])
    (by decide) (by decide) (by decide)
  exact ⟨by decide, by decide, by decide, h.2.2.1, h.2.2.2.2.2.2.1⟩

/-- Claim C4: in the final flat candidate list, every `Above` candidate
precedes every `Below` candidate (equivalently, no `Below` entry is
followed by an `Above` entry), and within a partition the candidates are
in ascending `last_activity_ts` order under `AbsoluteAccessed`,
respectively ascending `relative_last_activity` under `RelativeAccessed`. -/
theorem claim_C4 (o : EvictionOrder) (tds : List TenantData) (i j : ℕ)
    (hij : i < j) (hj : j < (collect_eviction_candidates o tds).length) :
    ¬(((collect_eviction_candidates o tds).get ⟨i, lt_trans hij hj⟩).1 =
          MinResidentSizePartition.below ∧
        ((collect_eviction_candidates o tds).get ⟨j, hj⟩).1 =
          MinResidentSizePartition.above) ∧
    (((collect_eviction_candidates o tds).get ⟨i, lt_trans hij hj⟩).1 =
        ((collect_eviction_candidates o tds).get ⟨j, hj⟩).1 →
      (o = .absoluteAccessed →
        ((collect_eviction_candidates o tds).get ⟨i, lt_trans hij hj⟩).2.last_activity_ts ≤
          ((collect_eviction_candidates o tds).get ⟨j, hj⟩).2.last_activity_ts) ∧
      (∀ b, o = .relativeAccessed b →
        ((collect_eviction_candidates o tds).get
            ⟨i, lt_trans hij hj⟩).2.relative_last_activity ≤
          ((collect_eviction_candidates o tds).get ⟨j, hj⟩).2.relative_last_activity)) := by
  have hsorted : List.Sorted (cand_le o) (collect_eviction_candidates o tds) :=
    List.sorted_insertionSort (cand_le o) (tds.flatMap (tenant_candidates o))
  have hrel := hsorted.rel_get_of_lt
    (show (⟨i, lt_trans hij hj⟩ : Fin (collect_eviction_candidates o tds).length) <
      ⟨j, hj⟩ from hij)
  set x := (collect_eviction_candidates o tds).get ⟨i, lt_trans hij hj⟩ with hx
  set y := (collect_eviction_candidates o tds).get ⟨j, hj⟩ with hy
  have hlex : x.1.rank < y.1.rank ∨
      (x.1.rank = y.1.rank ∧
        (o = .absoluteAccessed → x.2.last_activity_ts ≤ y.2.last_activity_ts) ∧
        (∀ b, o = .relativeAccessed b →
          x.2.relative_last_activity ≤ y.2.relative_last_activity)) := by
    cases o with
    | absoluteAccessed =>
      have h' : lexLe (· ≤ ·) (sort_key_abs x) (sort_key_abs y) := hrel
      rcases h' with h' | ⟨he, hs⟩
      · exact Or.inl h'
      · have he' : x.1.rank = y.1.rank := he
        have hs' : x.2.last_activity_ts ≤ y.2.last_activity_ts := hs
        refine Or.inr ⟨he', fun _ => hs', ?_⟩
        intro b hb
        exact (nomatch hb)
    | relativeAccessed b =>
      have h' : lexLe (· ≤ ·) (sort_key_rel x) (sort_key_rel y) := hrel
      rcases h' with h' | ⟨he, hs⟩
      · have h'' : x.1.rank < y.1.rank := h'
        exact Or.inl h''
      · have he' : x.1.rank = y.1.rank := he
        have hs' : x.2.relative_last_activity ≤ y.2.relative_last_activity := hs
        refine Or.inr ⟨he', ?_, fun b' hb => hs'⟩
        intro hb
        exact (nomatch hb)
  constructor
  · rintro ⟨h1, h2⟩
    rw [h1, h2] at hlex
    rcases hlex with h | ⟨h, _⟩
    · exact absurd h (by decide)
    · exact absurd h (by decide)
  · intro hpart
    rcases hlex with h | ⟨_, hs⟩
    · exfalso
      rw [hpart] at h
      exact lt_irrefl _ h
    · exact hs

/-- Witness for C4 at a concrete two-layer tenant under `AbsoluteAccessed`. -/
theorem claim_C4_witness :
    (0 < 1) ∧
    (1 < (collect_eviction_candidates .absoluteAccessed
      [⟨some 0, [⟨true, [⟨1, 5⟩, ⟨2, 9⟩], some 2⟩]⟩]).length) ∧
    (¬(((collect_eviction_candidates .absoluteAccessed
          [⟨some 0, [⟨true, [⟨1, 5⟩, ⟨2, 9⟩], some 2⟩]⟩]).get ⟨0, by decide⟩).1 =
            MinResidentSizePartition.below ∧
        ((collect_eviction_candidates .absoluteAccessed
          [⟨some 0, [⟨true, [⟨1, 5⟩, ⟨2, 9⟩], some 2⟩]⟩]).get ⟨1, by decide⟩).1 =
            MinResidentSizePartition.above)) := by
  have h := claim_C4 .absoluteAccessed
    [⟨some 0, [⟨true, [⟨1, 5⟩, ⟨2, 9⟩], some 2⟩]⟩] 0 1 (by decide) (by decide)
  exact ⟨by decide, by decide, h.1⟩

/-! ### The eviction planner (phase 1 of `disk_usage_eviction_task_iteration_impl`)

The planner walks the ordered candidate list with `usage_planned`
initialized to `usage_pre`; it stops as soon as pressure is relieved, warns
and snapshots `usage_planned` on the first `Below`-partition candidate
reached while still under pressure, and otherwise adds the candidate's file
size and counts it into `evicted_amount`.  The `Usage` trait is generic;
the planner reads only each candidate's partition and file size, so a
candidate is modelled as that pair. -/

structure PlannedUsage (U : Type) where
  respecting_tenant_min_resident_size : U
  fallback_to_global_lru : Option U
deriving DecidableEq

def plan_go {U : Type} (pressure : U → Bool) (add : U → ℕ → U) :
    Option U → U → ℕ → List (MinResidentSizePartition × ℕ) → Option U × U × ℕ
  | warned, planned, k, [] => (warned, planned, k)
  | warned, planned, k, (p, sz) :: rest =>
    if pressure planned then
      plan_go pressure add
        (if p = .below ∧ warned.isNone then some planned else warned)
        (add planned sz) (k+1) rest
    else (warned, planned, k)

/-- The planning loop: returns `PlannedUsage` (built from the final
`warned`/`usage_planned` pair exactly as in the source `match`) together
with `evicted_amount`. -/
def plan_evictions {U : Type} (pressure : U → Bool) (add : U → ℕ → U) (pre : U)
    (cands : List (MinResidentSizePartition × ℕ)) : PlannedUsage U × ℕ :=
  match plan_go pressure add none pre 0 cands with
  | (some r, planned, k) => (⟨r, some planned⟩, k)
  | (none, planned, k) => (⟨planned, none⟩, k)

/-- Projected usage after evicting the first `k` candidates. -/
def plan_after {U : Type} (add : U → ℕ → U) (pre : U)
    (cands : List (MinResidentSizePartition × ℕ)) (k : ℕ) : U :=
  List.foldl add pre ((cands.take k).map (fun c => c.2))

/-- Number of candidates consumed before pressure is relieved. -/
def stop_len {U : Type} (pressure : U → Bool) (add : U → ℕ → U) :
    U → List (MinResidentSizePartition × ℕ) → ℕ
  | _, [] => 0
  | u, (_, sz) :: rest =>
    if pressure u then stop_len pressure add (add u sz) rest + 1 else 0

/-- The planned usage at the stopping point. -/
def stop_state {U : Type} (pressure : U → Bool) (add : U → ℕ → U) :
    U → List (MinResidentSizePartition × ℕ) → U
  | u, [] => u
  | u, (_, sz) :: rest =>
    if pressure u then stop_state pressure add (add u sz) rest else u

/-- The usage snapshotted just before the first `Below` candidate processed
while under pressure, if any. -/
def first_below {U : Type} (pressure : U → Bool) (add : U → ℕ → U) :
    U → List (MinResidentSizePartition × ℕ) → Option U
  | _, [] => none
  | u, (p, sz) :: rest =>
    if pressure u then
      (if p = .below then some u else first_below pressure add (add u sz) rest)
    else none

theorem plan_after_zero {U : Type} (add : U → ℕ → U) (pre : U)
    (cands : List (MinResidentSizePartition × ℕ)) : plan_after add pre cands 0 = pre := by
  simp [plan_after]

theorem plan_after_cons_succ {U : Type} (add : U → ℕ → U) (pre : U)
    (p : MinResidentSizePartition) (sz : ℕ)
    (rest : List (MinResidentSizePartition × ℕ)) (k : ℕ) :
    plan_after add pre ((p, sz) :: rest) (k + 1) = plan_after add (add pre sz) rest k := by
  simp [plan_after]

theorem plan_go_amount {U : Type} (pressure : U → Bool) (add : U → ℕ → U) :
    ∀ (cands : List (MinResidentSizePartition × ℕ)) (w : Option U) (u : U) (k : ℕ),
      (plan_go pressure add w u k cands).2.2 = k + stop_len pressure add u cands := by
  intro cands
  induction cands with
  | nil => intro w u k; simp [plan_go, stop_len]
  | cons c rest ih =>
    intro w u k
    obtain ⟨p, sz⟩ := c
    rw [plan_go, stop_len]
    by_cases h : pressure u
    · rw [if_pos h, if_pos h, ih]
      omega
    · rw [if_neg h, if_neg h]
      simp

theorem plan_go_state {U : Type} (pressure : U → Bool) (add : U → ℕ → U) :
    ∀ (cands : List (MinResidentSizePartition × ℕ)) (w : Option U) (u : U) (k : ℕ),
      (plan_go pressure add w u k cands).2.1 = stop_state pressure add u cands := by
  intro cands
  induction cands with
  | nil => intro w u k; simp [plan_go, stop_state]
  | cons c rest ih =>
    intro w u k
    obtain ⟨p, sz⟩ := c
    rw [plan_go, stop_state]
    by_cases h : pressure u
    · rw [if_pos h, if_pos h, ih]
    · rw [if_neg h, if_neg h]

theorem plan_go_warned {U : Type} (pressure : U → Bool) (add : U → ℕ → U) :
    ∀ (cands : List (MinResidentSizePartition × ℕ)) (w : Option U) (u : U) (k : ℕ),
      (plan_go pressure add w u k cands).1 =
        (match w with
          | some x => some x
          | none => first_below pressure add u cands) := by
  intro cands
  induction cands with
  | nil =>
    intro w u k
    cases w with
    | some x => simp [plan_go]
    | none => simp [plan_go, first_below]
  | cons c rest ih =>
    intro w u k
    obtain ⟨p, sz⟩ := c
    rw [plan_go, first_below]
    by_cases h : pressure u
    · rw [if_pos h, if_pos h, ih]
      cases w with
      | some x => simp
      | none =>
        by_cases hp : p = MinResidentSizePartition.below
        · rw [if_pos ⟨hp, rfl⟩, if_pos hp]
        · rw [if_neg (by simp [hp]), if_neg hp]
    · rw [if_neg h, if_neg h]
      cases w with
      | some x => simp
      | none => simp

theorem stop_len_le_length {U : Type} (pressure : U → Bool) (add : U → ℕ → U) :
    ∀ (cands : List (MinResidentSizePartition × ℕ)) (u : U),
      stop_len pressure add u cands ≤ cands.length := by
  intro cands
  induction cands with
  | nil => intro u; simp [stop_len]
  | cons c rest ih =>
    intro u
    obtain ⟨p, sz⟩ := c
    rw [stop_len]
    by_cases h : pressure u
    · rw [if_pos h]
      have := ih (add u sz)
      simp
      omega
    · rw [if_neg h]
      simp

theorem stop_len_pressure_before {U : Type} (pressure : U → Bool) (add : U → ℕ → U) :
    ∀ (cands : List (MinResidentSizePartition × ℕ)) (u : U) (i : ℕ),
      i < stop_len pressure add u cands → pressure (plan_after add u cands i) = true := by
  intro cands
  induction cands with
  | nil => intro u i h; rw [stop_len] at h; omega
  | cons c rest ih =>
    intro u i h
    obtain ⟨p, sz⟩ := c
    rw [stop_len] at h
    by_cases hp : pressure u
    · rw [if_pos hp] at h
      cases i with
      | zero => rw [plan_after_zero]; exact hp
      | succ i' =>
        rw [plan_after_cons_succ]
        exact ih (add u sz) i' (by omega)
    · rw [if_neg hp] at h
      omega

theorem stop_len_no_pressure_at {U : Type} (pressure : U → Bool) (add : U → ℕ → U) :
    ∀ (cands : List (MinResidentSizePartition × ℕ)) (u : U),
      stop_len pressure add u cands < cands.length →
        pressure (plan_after add u cands (stop_len pressure add u cands)) = false := by
  intro cands
  induction cands with
  | nil => intro u h; simp [stop_len] at h
  | cons c rest ih =>
    intro u h
    obtain ⟨p, sz⟩ := c
    rw [stop_len] at h ⊢
    by_cases hp : pressure u
    · rw [if_pos hp] at h ⊢
      rw [plan_after_cons_succ]
      exact ih (add u sz) (by simp at h; omega)
    · rw [if_neg hp] at h ⊢
      rw [plan_after_zero]
      exact Bool.not_eq_true _ ▸ (by simpa using hp)

theorem stop_state_eq_plan_after {U : Type} (pressure : U → Bool) (add : U → ℕ → U) :
    ∀ (cands : List (MinResidentSizePartition × ℕ)) (u : U),
      stop_state pressure add u cands =
        plan_after add u cands (stop_len pressure add u cands) := by
  intro cands
  induction cands with
  | nil => intro u; simp [stop_state, stop_len, plan_after]
  | cons c rest ih =>
    intro u
    obtain ⟨p, sz⟩ := c
    rw [stop_state, stop_len]
    by_cases hp : pressure u
    · rw [if_pos hp, if_pos hp, plan_after_cons_succ]
      exact ih (add u sz)
    · rw [if_neg hp, if_neg hp, plan_after_zero]

theorem first_below_none {U : Type} (pressure : U → Bool) (add : U → ℕ → U) :
    ∀ (cands : List (MinResidentSizePartition × ℕ)) (u : U),
      (∀ i, i < stop_len pressure add u cands →
        (cands[i]?).map (fun c => c.1) ≠ some MinResidentSizePartition.below) →
      first_below pressure add u cands = none := by
  intro cands
  induction cands with
  | nil => intro u _; rfl
  | cons c rest ih =>
    intro u hno
    obtain ⟨p, sz⟩ := c
    rw [first_below]
    by_cases hp : pressure u
    · rw [if_pos hp]
      have hs : 0 < stop_len pressure add u ((p, sz) :: rest) := by
        rw [stop_len, if_pos hp]
        omega
      have hp0 := hno 0 hs
      simp at hp0
      rw [if_neg hp0]
      apply ih (add u sz)
      intro i hi
      have := hno (i+1) (by rw [stop_len, if_pos hp]; omega)
      simpa using this
    · rw [if_neg hp]

theorem first_below_some {U : Type} (pressure : U → Bool) (add : U → ℕ → U) :
    ∀ (cands : List (MinResidentSizePartition × ℕ)) (u : U) (i0 : ℕ),
      i0 < stop_len pressure add u cands →
      (cands[i0]?).map (fun c => c.1) = some MinResidentSizePartition.below →
      (∀ i', i' < i0 →
        (cands[i']?).map (fun c => c.1) ≠ some MinResidentSizePartition.below) →
      first_below pressure add u cands = some (plan_after add u cands i0) := by
  intro cands
  induction cands with
  | nil => intro u i0 h; rw [stop_len] at h; omega
  | cons c rest ih =>
    intro u i0 h hb hfirst
    obtain ⟨p, sz⟩ := c
    rw [stop_len] at h
    by_cases hp : pressure u
    · rw [if_pos hp] at h
      rw [first_below, if_pos hp]
      cases i0 with
      | zero =>
        simp at hb
        rw [if_pos hb, plan_after_zero]
      | succ i0' =>
        have h0 := hfirst 0 (by omega)
        simp at h0
        rw [if_neg h0, plan_after_cons_succ]
        apply ih (add u sz) i0' (by omega)
        · simpa using hb
        · intro i' hi'
          have := hfirst (i'+1) (by omega)
          simpa using this
    · rw [if_neg hp] at h
      omega

/-- Claim C3: for every ordered candidate list and pressure-triggering
initial usage, the planner selects as `evicted_amount` the length of the
shortest prefix whose summed file sizes (applied through
`add_available_bytes`) relieve the pressure — or the whole list when no
prefix suffices (conjuncts 1–3 pin that number down exactly);
`fallback_to_global_lru` is `Some` of the final planned usage precisely
when a `Below`-partition candidate was processed while still under
pressure, in which case `respecting_tenant_min_resident_size` is the
planned usage snapshotted just before the first such candidate; with no
such candidate it is the final planned usage and the fallback is `None`. -/
theorem claim_C3 {U : Type} (pressure : U → Bool) (add : U → ℕ → U) (pre : U)
    (cands : List (MinResidentSizePartition × ℕ)) (_hpre : pressure pre = true) :
    (plan_evictions pressure add pre cands).2 ≤ cands.length ∧
    (∀ i, i < (plan_evictions pressure add pre cands).2 →
      pressure (plan_after add pre cands i) = true) ∧
    ((plan_evictions pressure add pre cands).2 < cands.length →
      pressure (plan_after add pre cands ((plan_evictions pressure add pre cands).2)) =
        false) ∧
    ((∀ i, i < (plan_evictions pressure add pre cands).2 →
        (cands[i]?).map (fun c => c.1) ≠ some MinResidentSizePartition.below) →
      (plan_evictions pressure add pre cands).1 =
        ⟨plan_after add pre cands ((plan_evictions pressure add pre cands).2), none⟩) ∧
    (∀ i0, i0 < (plan_evictions pressure add pre cands).2 →
      (cands[i0]?).map (fun c => c.1) = some MinResidentSizePartition.below →
      (∀ i', i' < i0 →
        (cands[i']?).map (fun c => c.1) ≠ some MinResidentSizePartition.below) →
      (plan_evictions pressure add pre cands).1 =
        ⟨plan_after add pre cands i0,
          some (plan_after add pre cands ((plan_evictions pressure add pre cands).2))⟩) := by
  have htup : plan_go pressure add none pre 0 cands =
      (first_below pressure add pre cands,
        plan_after add pre cands (stop_len pressure add pre cands),
        stop_len pressure add pre cands) := by
    have h1 := plan_go_warned pressure add cands none pre 0
    have h2 := plan_go_state pressure add cands none pre 0
    have h3 := plan_go_amount pressure add cands none pre 0
    rw [stop_state_eq_plan_after] at h2
    apply Prod.ext
    · exact h1
    · apply Prod.ext
      · exact h2
      · rw [h3]
        show 0 + stop_len pressure add pre cands = stop_len pressure add pre cands
        omega
  have hamount : (plan_evictions pressure add pre cands).2 =
      stop_len pressure add pre cands := by
    unfold plan_evictions
    rw [htup]
    cases hfbv : first_below pressure add pre cands with
    | none => rfl
    | some x => rfl
  refine ⟨?_, ?_, ?_, ?_, ?_⟩
  · rw [hamount]
    exact stop_len_le_length pressure add cands pre
  · intro i hi
    rw [hamount] at hi
    exact stop_len_pressure_before pressure add cands pre i hi
  · intro hlt
    rw [hamount] at hlt ⊢
    exact stop_len_no_pressure_at pressure add cands pre hlt
  · intro hno
    rw [hamount] at hno
    have hfb := first_below_none pressure add cands pre hno
    rw [hamount]
    unfold plan_evictions
    rw [htup, hfb]
  · intro i0 hi0 hb hfirst
    rw [hamount] at hi0
    have hfb := first_below_some pressure add cands pre i0 hi0 hb hfirst
    rw [hamount]
    unfold plan_evictions
    rw [htup, hfb]

/-- Witness for C3: pressure below 10 available bytes, `pre = 5`, three
candidates of sizes 3, 4, 9 with the second in the `Below` partition; the
planner consumes two candidates and falls back to global LRU. -/
theorem claim_C3_witness :
    ((fun u : ℕ => decide (u < 10)) 5 = true) ∧
      (plan_evictions (fun u : ℕ => decide (u < 10)) (fun u n => u + n) 5
        [(MinResidentSizePartition.above, 3), (MinResidentSizePartition.below, 4),
          (MinResidentSizePartition.above, 9)]).2 ≤
        [(MinResidentSizePartition.above, 3), (MinResidentSizePartition.below, 4),
          (MinResidentSizePartition.above, 9)].length ∧
      (plan_evictions (fun u : ℕ => decide (u < 10)) (fun u n => u + n) 5
        [(MinResidentSizePartition.above, 3), (MinResidentSizePartition.below, 4),
          (MinResidentSizePartition.above, 9)]).1 =
        ⟨plan_after (fun u n => u + n) 5
            [(MinResidentSizePartition.above, 3), (MinResidentSizePartition.below, 4),
              (MinResidentSizePartition.above, 9)] 1,
          some (plan_after (fun u n => u + n) 5
            [(MinResidentSizePartition.above, 3), (MinResidentSizePartition.below, 4),
              (MinResidentSizePartition.above, 9)]
            ((plan_evictions (fun u : ℕ => decide (u < 10)) (fun u n => u + n) 5
              [(MinResidentSizePartition.above, 3), (MinResidentSizePartition.below, 4),
                (MinResidentSizePartition.above, 9)]).2))⟩ := by
  have h := claim_C3 (fun u : ℕ => decide (u < 10)) (fun u n => u + n) 5
    [(MinResidentSizePartition.above, 3), (MinResidentSizePartition.below, 4),
      (MinResidentSizePartition.above, 9)] (by decide)
  refine ⟨by decide, h.1, ?_⟩
  exact h.2.2.2.2 1 (by decide) (by decide) (fun i' hi' => by interval_cases i'; decide)

/-! ### The eviction executor's accounting (phase 2)

Each spawned task yields `Ok(file_size)` on success,
`Err((file_size, Some(NotFound | Downloaded)))` on an eviction error,
`Err((file_size, None))` on the per-layer 5-second timeout; joining a task
can also surface a panic or another `JoinError`.  The executor harvests
completions in some order and folds them into `usage_assumed` (starting
from `usage_pre`) and `evictions_failed` (starting from
`LayerCount::default()`), which become
`AssumedUsage { projected_after, failed }`. -/

inductive EvictionError where
  | notFound
  | downloaded
deriving DecidableEq

/-- The harvested completion of one eviction task, paired with the layer's
file size. -/
inductive EvictOutcome where
  | ok
  | layerErr (e : EvictionError)
  | timeout
  | panicked
  | unknownJoinError
deriving DecidableEq

structure LayerCount where
  file_sizes : ℕ
  count : ℕ
deriving DecidableEq

/-- One arm of the executor's `match next`: success restores the file size
into the assumed usage; `NotFound`/`Downloaded` and timeouts accumulate
into `evictions_failed`; panics and unknown join errors change nothing. -/
def account_one {U : Type} (add : U → ℕ → U) :
    U × LayerCount → ℕ × EvictOutcome → U × LayerCount
  | (u, failed), (sz, o) =>
    match o with
    | .ok => (add u sz, failed)
    | .layerErr _ => (u, ⟨failed.file_sizes + sz, failed.count + 1⟩)
    | .timeout => (u, ⟨failed.file_sizes + sz, failed.count + 1⟩)
    | .panicked => (u, failed)
    | .unknownJoinError => (u, failed)

/-- The executor's accounting over the harvested completions. -/
def execute_evictions {U : Type} (add : U → ℕ → U) (pre : U)
    (results : List (ℕ × EvictOutcome)) : U × LayerCount :=
  results.foldl (account_one add) (pre, ⟨0, 0⟩)

def is_ok_outcome : EvictOutcome → Bool
  | .ok => true
  | _ => false

def is_failed_outcome : EvictOutcome → Bool
  | .layerErr _ => true
  | .timeout => true
  | _ => false

theorem execute_evictions_go {U : Type} (add : U → ℕ → U) :
    ∀ (results : List (ℕ × EvictOutcome)) (u : U) (fs c : ℕ),
      results.foldl (account_one add) (u, ⟨fs, c⟩) =
        (List.foldl add u ((results.filter (fun r => is_ok_outcome r.2)).map
            (fun r => r.1)),
          ⟨fs + ((results.filter (fun r => is_failed_outcome r.2)).map
            (fun r => r.1)).sum,
            c + (results.filter (fun r => is_failed_outcome r.2)).length⟩) := by
  intro results
  induction results with
  | nil => intro u fs c; simp
  | cons r rest ih =>
    intro u fs c
    obtain ⟨sz, o⟩ := r
    cases o with
    | ok =>
      simp only [List.foldl_cons, List.filter_cons]
      rw [show account_one add (u, ⟨fs, c⟩) (sz, .ok) = (add u sz, ⟨fs, c⟩) from rfl]
      rw [ih]
      simp [is_ok_outcome, is_failed_outcome]
    | layerErr e =>
      simp only [List.foldl_cons, List.filter_cons]
      rw [show account_one add (u, ⟨fs, c⟩) (sz, .layerErr e) =
        (u, ⟨fs + sz, c + 1⟩) from rfl]
      rw [ih]
      simp [is_ok_outcome, is_failed_outcome]
      constructor
      · omega
      · omega
    | timeout =>
      simp only [List.foldl_cons, List.filter_cons]
      rw [show account_one add (u, ⟨fs, c⟩) (sz, .timeout) =
        (u, ⟨fs + sz, c + 1⟩) from rfl]
      rw [ih]
      simp [is_ok_outcome, is_failed_outcome]
      constructor
      · omega
      · omega
    | panicked =>
      simp only [List.foldl_cons, List.filter_cons]
      rw [show account_one add (u, ⟨fs, c⟩) (sz, .panicked) = (u, ⟨fs, c⟩) from rfl]
      rw [ih]
      simp [is_ok_outcome, is_failed_outcome]
    | unknownJoinError =>
      simp only [List.foldl_cons, List.filter_cons]
      rw [show account_one add (u, ⟨fs, c⟩) (sz, .unknownJoinError) = (u, ⟨fs, c⟩) from rfl]
      rw [ih]
      simp [is_ok_outcome, is_failed_outcome]

/-- Claim C5: the reported `AssumedUsage` satisfies: `projected_after`
equals the pre-iteration usage with exactly the successfully evicted
layers' file sizes added through `add_available_bytes` (in completion
order); `failed.count` is the number of layers whose eviction ended in
`NotFound`, `Downloaded` or per-layer timeout, and `failed.file_sizes` is
the sum of those layers' file sizes; panicked tasks (and unknown join
errors) change neither figure. -/
theorem claim_C5 {U : Type} (add : U → ℕ → U) (pre : U)
    (results : List (ℕ × EvictOutcome)) :
    execute_evictions add pre results =
      (List.foldl add pre ((results.filter (fun r => is_ok_outcome r.2)).map
          (fun r => r.1)),
        ⟨((results.filter (fun r => is_failed_outcome r.2)).map (fun r => r.1)).sum,
          (results.filter (fun r => is_failed_outcome r.2)).length⟩) := by
  unfold execute_evictions
  rw [execute_evictions_go]
  simp
